import Mathlib

/-!
# Verification of the bilingual-summarizer extractive summarization core

A shallow embedding, in Lean 4, of the summarization engine of the
`bilingual-summarizer` package:

* `src/utils/textPreprocessing.ts` — sentence segmentation (`extractSentences`)
  and text trimming;
* `src/utils/languageDetection.ts` — `isArabic` (the external `langdetect`
  backend is a parameter `det`);
* `src/extractors/summarizer.ts` — `summarizeText`, `scoreEnglishSentences`,
  `scoreArabicSentences`;
* `src/extractors/arabicSummarizer.ts` — `summarizeArabicText`,
  `scoreArabicSentencesBasic`, `scoreArabicSentencesAdvanced` (the optional
  Arabic NLP backends are a parameter `bk`, Unicode NFD is a parameter `nfd`);
* `src/index.ts` — the response-field projection `filterResultFields` and the
  sentence-count capping of the synchronous `summarize` entry point.

JavaScript numbers are modelled as rationals (`ℚ`); all scoring arithmetic in
the source stays well inside the range where double-precision floats behave
like exact arithmetic on the structure the theorems talk about.  JavaScript
strings are modelled as `String` / `List Char`; the regex operations used by
the source (`split(/(?<=[.!?])\s+/)`, `split(/[。؟!\.!\?]+/)`, `split(/\s+/)`,
`match(/\b\w+\b/g)`, `replace(/[ً-ٰٟ]/g, '')`, `trim()`,
`toLowerCase()`) are implemented by explicit structural recursion below.
-/

/-! ## Character classes -/

/-- JavaScript `\s` (the whitespace characters relevant to this code base). -/
def isWsChar (c : Char) : Bool :=
  c = ' ' || c = '\t' || c = '\n' || c = '\r' ||
  c.toNat = 0xB || c.toNat = 0xC || c.toNat = 0xA0 ||
  c.toNat = 0x2028 || c.toNat = 0x2029 || c.toNat = 0xFEFF

/-- The Latin sentence terminators of `extractSentences`' English regex
`/(?<=[.!?])\s+/`. -/
def isTermChar (c : Char) : Bool :=
  c = '.' || c = '!' || c = '?'

/-- The Arabic sentence-boundary class of `extractSentences`' regex
`/[。؟!\.!\?]+/` (ideographic full stop, Arabic question mark, `!`, `.`, `?`). -/
def isArSepChar (c : Char) : Bool :=
  c.toNat = 0x3002 || c.toNat = 0x61F || c = '!' || c = '.' || c = '?'

/-- A character of the Arabic Unicode block `U+0600`–`U+06FF`, the test used by
`isArabic` / `detectLanguage` (`/[؀-ۿ]/`). -/
def isArabBlockChar (c : Char) : Bool :=
  0x600 ≤ c.toNat && c.toNat ≤ 0x6FF

/-- A combining diacritic stripped by the Arabic word normalization
(`replace(/[ً-ٰٟ]/g, '')`). -/
def isArDiacritic (c : Char) : Bool :=
  (0x64B ≤ c.toNat && c.toNat ≤ 0x65F) || c.toNat = 0x670

/-- JavaScript `\w` (no `u` flag): `[A-Za-z0-9_]`. -/
def isWordChar (c : Char) : Bool :=
  ('a' ≤ c && c ≤ 'z') || ('A' ≤ c && c ≤ 'Z') || ('0' ≤ c && c ≤ '9') || c = '_'

/-- ASCII lower-casing of one character; on the `\w` tokens this code applies
it to, JavaScript `toLowerCase()` coincides with the ASCII mapping. -/
def charLower (c : Char) : Char :=
  if 'A' ≤ c && c ≤ 'Z' then Char.ofNat (c.toNat + 32) else c

/-! ## Generic list splitting, trimming, tokenizing -/

/-- Splitter for `String.prototype.split` with a character-class-run separator
regex (used for `/[。؟!\.!\?]+/` and `/\s+/`): `mode` is true while a separator
run is being consumed, `cur` is the reversed current fragment. -/
def splitRunGo (sep : Char → Bool) (mode : Bool) (cur : List Char) :
    List Char → List (List Char)
  | [] => if mode then [[]] else [cur.reverse]
  | a :: rest =>
    if mode then
      if sep a then splitRunGo sep true [] rest
      else splitRunGo sep false [a] rest
    else if sep a then cur.reverse :: splitRunGo sep true [] rest
    else splitRunGo sep false (a :: cur) rest

/-- `String.prototype.split` with a separator class repeated (`/[c…]+/`). -/
def splitRun (sep : Char → Bool) (l : List Char) : List (List Char) :=
  splitRunGo sep false [] l

/-- `String.prototype.split('.')`: every single `.` is a boundary. -/
def splitDotGo (cur : List Char) : List Char → List (List Char)
  | [] => [cur.reverse]
  | a :: rest =>
    if a = '.' then cur.reverse :: splitDotGo [] rest
    else splitDotGo (a :: cur) rest

/-- Is the head of the reversed current fragment a Latin sentence terminator?
(The lookbehind `(?<=[.!?])` of the English sentence regex.) -/
def headIsTerm : List Char → Bool
  | [] => false
  | p :: _ => isTermChar p

/-- Splitter for the English sentence regex `/(?<=[.!?])\s+/`: split on a
whitespace run whose preceding character is `.`, `!` or `?`, keeping the
terminator with the left fragment.  `mode` is true while the whitespace run is
being consumed. -/
def splitEnGo (mode : Bool) (cur : List Char) : List Char → List (List Char)
  | [] => if mode then [[]] else [cur.reverse]
  | a :: rest =>
    if mode then
      if isWsChar a then splitEnGo true [] rest
      else splitEnGo false [a] rest
    else if headIsTerm cur && isWsChar a then
      cur.reverse :: splitEnGo true [] rest
    else splitEnGo false (a :: cur) rest

/-- Maximal runs of characters satisfying `p`
(`match(/\b\w+\b/g)`-style tokenization); `cur` is the reversed current run. -/
def runsGo (p : Char → Bool) (cur : List Char) : List Char → List (List Char)
  | [] => if cur.isEmpty then [] else [cur.reverse]
  | a :: rest =>
    if p a then runsGo p (a :: cur) rest
    else if cur.isEmpty then runsGo p [] rest
    else cur.reverse :: runsGo p [] rest

/-- JavaScript `String.prototype.trim` on a character list. -/
def trimChars (l : List Char) : List Char :=
  (((l.dropWhile isWsChar).reverse.dropWhile isWsChar).reverse)

/-- Is `pat` a contiguous sublist of the second argument?
(`String.prototype.includes`.) -/
def subOf (pat : List Char) : List Char → Bool
  | [] => pat.isEmpty
  | a :: cs => pat.isPrefixOf (a :: cs) || subOf pat cs

/-! ## String wrappers -/

/-- JavaScript `text.trim()`. -/
def trimStr (s : String) : String := ⟨trimChars s.data⟩

/-- JavaScript `text.toLowerCase()` (ASCII part, cf. `charLower`). -/
def lowerStr (s : String) : String := ⟨s.data.map charLower⟩

/-- JavaScript `sentence.split(/\s+/)`. -/
def splitWs (s : String) : List String :=
  (splitRun isWsChar s.data).map (fun l => ⟨l⟩)

/-- JavaScript `text.split('.')`. -/
def splitDots (s : String) : List String :=
  (splitDotGo [] s.data).map (fun l => ⟨l⟩)

/-- `sentence.toLowerCase().match(/\b\w+\b/g) || []` — the English token list
of `scoreEnglishSentences`. -/
def wordsEn (s : String) : List String :=
  (runsGo isWordChar [] (lowerStr s).data).map (fun l => ⟨l⟩)

/-- `word.replace(/[ً-ٰٟ]/g, '')` — strip Arabic diacritics. -/
def stripDiacritics (s : String) : String :=
  ⟨s.data.filter (fun c => !isArDiacritic c)⟩

/-- `word.normalize('NFD').replace(/[ً-ٰٟ]/g, '')` — the Arabic
word normalization of `arabicSummarizer.ts`.  Unicode canonical decomposition
is not reimplemented; it is the parameter `nfd`. -/
def normalizeArWord (nfd : String → String) (w : String) : String :=
  stripDiacritics (nfd w)

/-- `Array.prototype.join(sep)`. -/
def joinWith (sep : String) : List String → String
  | [] => ""
  | [a] => a
  | a :: b :: rest => a ++ sep ++ joinWith sep (b :: rest)

/-- `text.includes(term)`. -/
def includesStr (s pat : String) : Bool := subOf pat.data s.data

/-- `/[؀-ۿ]/.test(text)`. -/
def hasArabChar (s : String) : Bool := s.data.any isArabBlockChar

/-! ## Language detection (`languageDetection.ts`)

`isArabic` first tests for characters of the Arabic block and otherwise asks
`detectLanguage`, whose non-trivial branches delegate to the external `arajs`
and `langdetect` libraries.  That external classifier is the parameter
`det : String → Bool` (`det s = true` iff the libraries report language `ar`
for `s`). -/

/-- `isArabic(text)` of `languageDetection.ts`, with the external detector
abstracted as `det`. -/
def isArabicStr (det : String → Bool) (s : String) : Bool :=
  hasArabChar s || det s

/-! ## Sentence segmentation (`textPreprocessing.ts`) -/

/-- `extractSentences(text)`: Arabic texts are split on the boundary class
`/[。؟!\.!\?]+/`, other texts on `/(?<=[.!?])\s+/`; empty fragments are dropped
(`filter(Boolean)`) and the survivors trimmed. -/
def extractSentences (det : String → Bool) (text : String) : List String :=
  if isArabicStr det text then
    (((splitRun isArSepChar text.data).map (fun l => (⟨l⟩ : String))).filter
        (fun s => s ≠ "")).map trimStr
  else
    (((splitEnGo false [] text.data).map (fun l => (⟨l⟩ : String))).filter
        (fun s => s ≠ "")).map trimStr

-- sanity checks (segmentation mirrors the JavaScript behaviour)
example : extractSentences (fun _ => false) "Aa bb.  Cc dd." = ["Aa bb.", "Cc dd."] := by decide
example : extractSentences (fun _ => false) "" = [] := by decide
example : extractSentences (fun _ => false) " " = [""] := by decide
example : extractSentences (fun _ => false) "a.b. c" = ["a.b.", "c"] := by decide

/-! ## Data model (`types.ts`) -/

/-- `Sentence` of `src/types.ts`: sentence text, score, original index. -/
structure Sentence where
  text : String
  score : ℚ
  index : ℕ
deriving DecidableEq, Repr

/-! ## English scoring (`summarizer.ts`, `scoreEnglishSentences`) -/

/-- The word-frequency table of `scoreEnglishSentences`: occurrences of `w`
among all tokens of length `> 1` across the document (lookups of skipped
short words return `0`, like `wordFrequency[word] || 0`). -/
def enFreq (ss : List String) (w : String) : ℕ :=
  ((ss.map (fun s => (wordsEn s).filter (fun v => 1 < v.length))).flatten).count w

/-- The pre-boost frequency-density score of one English sentence: `0` for
sentences of fewer than 3 tokens, otherwise the sum of the document
frequencies of its tokens of length `> 1`, divided by the token count
(`score / (words.length || 1)`). -/
def enBase (ss : List String) (text : String) : ℚ :=
  let ws := wordsEn text
  if ws.length < 3 then 0
  else
    let raw : ℚ := ws.foldl (fun t w => if 1 < w.length then t + (enFreq ss w : ℚ) else t) 0
    let den : ℚ := if ws.length = 0 then 1 else (ws.length : ℚ)
    raw / den

/-- The positional boost factor of `scoreEnglishSentences`: `×1.25` for the
first or last sentence, `×1.1` for other sentences with
`index < sentences.length * 0.1`. -/
def enPosFactor (i n : ℕ) : ℚ :=
  if i = 0 ∨ i = n - 1 then 1.25
  else if (i : ℚ) < (n : ℚ) * 0.1 then 1.1
  else 1

/-- The body of the `sentences.map((text, index) => …)` in
`scoreEnglishSentences`. -/
def scoreEnBody (ss : List String) (p : ℕ × String) : Sentence :=
  if (wordsEn p.2).length < 3 then ⟨p.2, 0, p.1⟩
  else ⟨p.2, enBase ss p.2 * enPosFactor p.1 ss.length, p.1⟩

/-- `scoreEnglishSentences(sentences)` of `summarizer.ts`. -/
def scoreEnglishSentences (ss : List String) : List Sentence :=
  ss.enum.map (scoreEnBody ss)

/-! ## Arabic scoring of `summarizer.ts` (`scoreArabicSentences`) -/

/-- The word-frequency table of `scoreArabicSentences`: whitespace tokens of
length `> 1`, no normalization. -/
def arFreq (ss : List String) (w : String) : ℕ :=
  ((ss.map (fun s => (splitWs s).filter (fun v => 1 < v.length))).flatten).count w

/-- The `importantTerms` list of `scoreArabicSentences`. -/
def arImportantTerms : List String :=
  ["من أهم", "يجب", "ضروري", "أساسي", "مهم", "خلاصة", "نتيجة", "إنّ", "إن"]

/-- The pre-boost frequency-density score of one sentence in
`scoreArabicSentences`: `0` below 2 whitespace tokens, otherwise frequency
density over the unnormalized whitespace tokens. -/
def arBase (ss : List String) (text : String) : ℚ :=
  let ws := splitWs text
  if ws.length < 2 then 0
  else
    let raw : ℚ := ws.foldl (fun t w => if 1 < w.length then t + (arFreq ss w : ℚ) else t) 0
    let den : ℚ := if ws.length = 0 then 1 else (ws.length : ℚ)
    raw / den

/-- The positional boost factor of `scoreArabicSentences` — identical to the
English one: `×1.25` first/last, `×1.1` in the first 10%. -/
def arPosFactor (i n : ℕ) : ℚ :=
  if i = 0 ∨ i = n - 1 then 1.25
  else if (i : ℚ) < (n : ℚ) * 0.1 then 1.1
  else 1

/-- The `importantTerms` boost factor of `scoreArabicSentences` (`×1.15`,
applied once when any term occurs). -/
def arMarkerFactor (text : String) : ℚ :=
  if arImportantTerms.any (fun t => includesStr text t) then 1.15 else 1

/-- The body of the `sentences.map((text, index) => …)` in
`scoreArabicSentences`. -/
def scoreArBody (ss : List String) (p : ℕ × String) : Sentence :=
  if (splitWs p.2).length < 2 then ⟨p.2, 0, p.1⟩
  else ⟨p.2, arBase ss p.2 * arPosFactor p.1 ss.length * arMarkerFactor p.2, p.1⟩

/-- `scoreArabicSentences(sentences)` of `summarizer.ts`. -/
def scoreArabicSentences (ss : List String) : List Sentence :=
  ss.enum.map (scoreArBody ss)

/-! ## Arabic scoring of `arabicSummarizer.ts`

The optional Arabic NLP backends (`arabic-nlp`, `node-arabic`,
`ar-word-tokenizer`, `arabic-wordnet`) are modelled as one abstract backend:
`run s = none` models a backend call that throws for `s` (the `catch (e)`
branches), `tokens = none` models a falsy `analysis.tokens`
(`analysis.tokens || sentence.split(/\s+/)`), and `nouns` models
`analysis.nouns || []` (always `none` for the tokenizer-only backends). -/

/-- Result of a successful backend call. -/
structure ArAnalysis where
  tokens : Option (List String)
  nouns : Option (List String)

/-- An optional Arabic NLP backend; `run s = none` means the call throws. -/
structure ArBackend where
  run : String → Option ArAnalysis

/-- The token list the advanced scorer uses for a sentence: the backend's
tokens, falling back to whitespace splitting when the backend throws or
returns no tokens. -/
def advWords (bk : ArBackend) (s : String) : List String :=
  match bk.run s with
  | none => splitWs s
  | some a => a.tokens.getD (splitWs s)

/-- The noun list recorded for a sentence (stays `[]` when the backend throws
before the assignment, or offers no `nouns`). -/
def advNouns (bk : ArBackend) (s : String) : List String :=
  match bk.run s with
  | none => []
  | some a => a.nouns.getD []

/-- The word-frequency table of `scoreArabicSentencesAdvanced`: backend tokens,
normalized (`NFD` + diacritic strip), kept when the *normalized* length
is `> 1`. -/
def advFreq (nfd : String → String) (bk : ArBackend) (ss : List String) (w : String) : ℕ :=
  ((ss.map (fun s =>
      ((advWords bk s).map (normalizeArWord nfd)).filter (fun v => 1 < v.length))).flatten).count w

/-- The `importantMarkers` list of `scoreArabicSentencesAdvanced`. -/
def advImportantMarkers : List String :=
  ["من أهم", "يجب", "ضروري", "أساسي", "مهم", "خلاصة",
   "نتيجة", "إنّ", "إن", "لذلك", "وبالتالي", "وخلاصة القول",
   "باختصار", "بشكل أساسي", "من الجدير بالذكر", "لا بد من",
   "من الضروري", "حيث أن", "بالإضافة إلى ذلك", "وعلاوة على ذلك"]

/-- The pre-boost score of one sentence in `scoreArabicSentencesAdvanced`:
frequency density of the whitespace tokens (looked up through the normalized
table) plus `0.5` per recorded noun.  The scorer zeroes on raw character
length `< 20` before this is computed. -/
def advBase (nfd : String → String) (bk : ArBackend) (ss : List String)
    (text : String) : ℚ :=
  let ws := splitWs text
  let raw : ℚ := ws.foldl
    (fun t w =>
      if 1 < w.length then t + (advFreq nfd bk ss (normalizeArWord nfd w) : ℚ) else t) 0
  let den : ℚ := if ws.length = 0 then 1 else (ws.length : ℚ)
  raw / den + ((advNouns bk text).length : ℚ) * 0.5

/-- The positional boost factor of `scoreArabicSentencesAdvanced`: `×1.5`
first, `×1.3` last, `×1.2` in the first 20%. -/
def advPosFactor (i n : ℕ) : ℚ :=
  if i = 0 then 1.5
  else if i = n - 1 then 1.3
  else if (i : ℚ) < (n : ℚ) * 0.2 then 1.2
  else 1

/-- The `importantMarkers` boost factor of `scoreArabicSentencesAdvanced`
(`×1.3`). -/
def advMarkerFactor (text : String) : ℚ :=
  if advImportantMarkers.any (fun t => includesStr text t) then 1.3 else 1

/-- The body of the `sentences.map((text, index) => …)` in
`scoreArabicSentencesAdvanced`. -/
def scoreAdvBody (nfd : String → String) (bk : ArBackend) (ss : List String)
    (p : ℕ × String) : Sentence :=
  if p.2.length < 20 then ⟨p.2, 0, p.1⟩
  else ⟨p.2, advBase nfd bk ss p.2 * advPosFactor p.1 ss.length * advMarkerFactor p.2, p.1⟩

/-- `scoreArabicSentencesAdvanced(sentences)` of `arabicSummarizer.ts`. -/
def scoreArabicSentencesAdvanced (nfd : String → String) (bk : ArBackend)
    (ss : List String) : List Sentence :=
  ss.enum.map (scoreAdvBody nfd bk ss)

/-- The word-frequency table of `scoreArabicSentencesBasic`: whitespace tokens
whose *raw* length is `> 1`, counted under their normalized form. -/
def basicFreq (nfd : String → String) (ss : List String) (w : String) : ℕ :=
  ((ss.map (fun s =>
      ((splitWs s).filter (fun v => 1 < v.length)).map (normalizeArWord nfd))).flatten).count w

/-- The `importantTerms` list of `scoreArabicSentencesBasic`. -/
def basicImportantTerms : List String :=
  ["من أهم", "يجب", "ضروري", "أساسي", "مهم", "خلاصة",
   "نتيجة", "إنّ", "إن", "لذلك", "وبالتالي"]

/-- The pre-boost frequency-density score of one sentence in
`scoreArabicSentencesBasic`: `0` below 2 whitespace tokens, otherwise
frequency density of the whitespace tokens looked up normalized. -/
def basicBase (nfd : String → String) (ss : List String) (text : String) : ℚ :=
  let ws := splitWs text
  if ws.length < 2 then 0
  else
    let raw : ℚ := ws.foldl
      (fun t w =>
        if 1 < w.length then t + (basicFreq nfd ss (normalizeArWord nfd w) : ℚ) else t) 0
    let den : ℚ := if ws.length = 0 then 1 else (ws.length : ℚ)
    raw / den

/-- The positional boost factor of `scoreArabicSentencesBasic`: `×1.5` first,
`×1.3` last, `×1.2` in the first 20%. -/
def basicPosFactor (i n : ℕ) : ℚ :=
  if i = 0 then 1.5
  else if i = n - 1 then 1.3
  else if (i : ℚ) < (n : ℚ) * 0.2 then 1.2
  else 1

/-- The `importantTerms` boost factor of `scoreArabicSentencesBasic`
(`×1.25`). -/
def basicMarkerFactor (text : String) : ℚ :=
  if basicImportantTerms.any (fun t => includesStr text t) then 1.25 else 1

/-- The body of the `sentences.map((text, index) => …)` in
`scoreArabicSentencesBasic`. -/
def scoreBasicBody (nfd : String → String) (ss : List String) (p : ℕ × String) : Sentence :=
  if (splitWs p.2).length < 2 then ⟨p.2, 0, p.1⟩
  else ⟨p.2, basicBase nfd ss p.2 * basicPosFactor p.1 ss.length * basicMarkerFactor p.2, p.1⟩

/-- `scoreArabicSentencesBasic(sentences)` of `arabicSummarizer.ts`. -/
def scoreArabicSentencesBasic (nfd : String → String) (ss : List String) : List Sentence :=
  ss.enum.map (scoreBasicBody nfd ss)

/-! ## Selection (shared by both summarizers) -/

/-- The comparator `(a, b) => b.score - a.score` as an order: `a` sorts no
later than `b` iff `b.score ≤ a.score`; the JavaScript engine's sort is
stable, as is `List.insertionSort`. -/
def byScoreDesc (a b : Sentence) : Prop := b.score ≤ a.score

/-- The comparator `(a, b) => a.index - b.index` as an order. -/
def byIndexAsc (a b : Sentence) : Prop := a.index ≤ b.index

instance : DecidableRel byScoreDesc :=
  fun a b => inferInstanceAs (Decidable (b.score ≤ a.score))

instance : DecidableRel byIndexAsc :=
  fun a b => inferInstanceAs (Decidable (a.index ≤ b.index))

instance : IsTotal Sentence byScoreDesc := ⟨fun a b => le_total b.score a.score⟩

instance : IsTrans Sentence byScoreDesc := ⟨fun _ _ _ h1 h2 => le_trans h2 h1⟩

instance : IsTotal Sentence byIndexAsc := ⟨fun a b => Nat.le_total a.index b.index⟩

instance : IsTrans Sentence byIndexAsc := ⟨fun _ _ _ h1 h2 => Nat.le_trans h1 h2⟩

/-- Sort by score descending (stable), take the top `k`, restore document
order — the selection steps shared by `summarizeText` and
`summarizeArabicText`. -/
def selectTop (scored : List Sentence) (k : ℕ) : List Sentence :=
  List.insertionSort byIndexAsc ((List.insertionSort byScoreDesc scored).take k)

/-! ## The summarizers -/

/-- `summarizeText(text, sentenceCount)` of `summarizer.ts` (the non-throwing
normal control flow; the `catch` fallback is modelled separately by
`summarizeTextWithErr`). -/
def summarizeText (det : String → Bool) (text : String) (k : ℕ) : String :=
  if trimStr text = "" then ""
  else
    let ss := extractSentences det text
    if ss.length ≤ k then text
    else
      let scored :=
        if isArabicStr det text then scoreArabicSentences ss else scoreEnglishSentences ss
      joinWith " " ((selectTop scored k).map Sentence.text)

/-- `summarizeArabicText(text, sentenceCount)` of `arabicSummarizer.ts`
(normal control flow); `hasLib` is `hasAnyArabicLibrary()`. -/
def summarizeArabicText (nfd : String → String) (bk : ArBackend) (hasLib : Bool)
    (det : String → Bool) (text : String) (k : ℕ) : String :=
  if trimStr text = "" then ""
  else
    let ss := extractSentences det text
    if ss.length ≤ k then text
    else
      let scored :=
        if hasLib then scoreArabicSentencesAdvanced nfd bk ss
        else scoreArabicSentencesBasic nfd ss
      joinWith " " ((selectTop scored k).map Sentence.text)

/-- The `catch` fallback of both summarizers:
`text.split('.').slice(0, sentenceCount).join('.').trim() || text`. -/
def fallbackTruncate (text : String) (k : ℕ) : String :=
  let truncated := trimStr (joinWith "." ((splitDots text).take k))
  if truncated = "" then text else truncated

/-- `summarizeText` with the body abstracted as a fallible computation `run`
(`.error` models a thrown internal error during segmentation or scoring): the
`try`/`catch` of `summarizer.ts`. -/
def summarizeTextWithErr (run : String → ℕ → Except Unit String)
    (text : String) (k : ℕ) : String :=
  if trimStr text = "" then ""
  else
    match run text k with
    | Except.ok s => s
    | Except.error _ => fallbackTruncate text k

/-! ## Shape lemmas for the scorers

All four scorers are implemented as `sentences.map((text, index) => …)`; they
annotate but never reorder, drop or rewrite sentences. -/

theorem enum_getElem? (l : List α) (i : ℕ) :
    l.enum[i]? = l[i]?.map (fun a => (i, a)) := by
  rcases Nat.lt_or_ge i l.length with h | h
  · rw [List.getElem?_eq_getElem (by simpa [List.enum_length] using h),
      List.getElem?_eq_getElem h, List.getElem_enum]
    rfl
  · rw [List.getElem?_eq_none (by simpa [List.enum_length] using h),
      List.getElem?_eq_none h]
    rfl

/-- A scorer body whose result keeps the given text and index (all four
scorer bodies do). -/
def KeepsTextIdx (F : ℕ × String → Sentence) : Prop :=
  ∀ p, (F p).text = p.2 ∧ (F p).index = p.1

theorem keeps_scoreEnBody (ss : List String) : KeepsTextIdx (scoreEnBody ss) := by
  intro p
  unfold scoreEnBody
  split <;> exact ⟨rfl, rfl⟩

theorem keeps_scoreArBody (ss : List String) : KeepsTextIdx (scoreArBody ss) := by
  intro p
  unfold scoreArBody
  split <;> exact ⟨rfl, rfl⟩

theorem keeps_scoreAdvBody (nfd : String → String) (bk : ArBackend) (ss : List String) :
    KeepsTextIdx (scoreAdvBody nfd bk ss) := by
  intro p
  unfold scoreAdvBody
  split <;> exact ⟨rfl, rfl⟩

theorem keeps_scoreBasicBody (nfd : String → String) (ss : List String) :
    KeepsTextIdx (scoreBasicBody nfd ss) := by
  intro p
  unfold scoreBasicBody
  split <;> exact ⟨rfl, rfl⟩

theorem enumMap_map_text {F : ℕ × String → Sentence} (hF : KeepsTextIdx F)
    (ss : List String) : (ss.enum.map F).map Sentence.text = ss := by
  rw [List.map_map]
  have h : (Sentence.text ∘ F) = Prod.snd := funext fun p => (hF p).1
  rw [h, List.enum_map_snd]

theorem enumMap_map_index {F : ℕ × String → Sentence} (hF : KeepsTextIdx F)
    (ss : List String) : (ss.enum.map F).map Sentence.index = List.range ss.length := by
  rw [List.map_map]
  have h : (Sentence.index ∘ F) = Prod.fst := funext fun p => (hF p).2
  rw [h, List.enum_map_fst]

theorem enumMap_length (F : ℕ × String → Sentence) (ss : List String) :
    (ss.enum.map F).length = ss.length := by
  rw [List.length_map, List.enum_length]

theorem enumMap_getElem? (F : ℕ × String → Sentence) (ss : List String) (i : ℕ) :
    (ss.enum.map F)[i]? = (ss[i]?).map (fun t => F (i, t)) := by
  rw [List.getElem?_map, enum_getElem?, Option.map_map]
  rfl

/-! ## Selector lemmas -/

theorem selectTop_perm_take (scored : List Sentence) (k : ℕ) :
    List.Perm (selectTop scored k) ((List.insertionSort byScoreDesc scored).take k) :=
  List.perm_insertionSort byIndexAsc _

theorem mem_selectTop {x : Sentence} {scored : List Sentence} {k : ℕ}
    (h : x ∈ selectTop scored k) : x ∈ scored := by
  have h1 := (selectTop_perm_take scored k).mem_iff.mp h
  have h2 := List.take_sublist k (List.insertionSort byScoreDesc scored)
  exact (List.perm_insertionSort byScoreDesc scored).mem_iff.mp (h2.subset h1)

theorem selectTop_length (scored : List Sentence) (k : ℕ) :
    (selectTop scored k).length = min k scored.length := by
  rw [(selectTop_perm_take scored k).length_eq, List.length_take,
    (List.perm_insertionSort byScoreDesc scored).length_eq]

/-- After the final `sort((a, b) => a.index - b.index)`, the selected
sentences carry strictly increasing original indices, provided the scored
input carried pairwise distinct indices. -/
theorem selectTop_pairwise_lt (scored : List Sentence) (k : ℕ)
    (h : (scored.map Sentence.index).Nodup) :
    (selectTop scored k).Pairwise (fun a b => a.index < b.index) := by
  have hsorted : (selectTop scored k).Sorted byIndexAsc :=
    List.sorted_insertionSort byIndexAsc _
  have hperm : List.Perm (scored.map Sentence.index) ((selectTop scored k).map Sentence.index) →
      True := fun _ => trivial
  have hnd1 : ((List.insertionSort byScoreDesc scored).map Sentence.index).Nodup := by
    exact (((List.perm_insertionSort byScoreDesc scored).map Sentence.index).nodup_iff).mpr h
  have hnd2 : (((List.insertionSort byScoreDesc scored).take k).map Sentence.index).Nodup :=
    hnd1.sublist ((List.take_sublist k _).map Sentence.index)
  have hnd3 : ((selectTop scored k).map Sentence.index).Nodup :=
    (((selectTop_perm_take scored k).map Sentence.index).nodup_iff).mpr hnd2
  have hpw : (selectTop scored k).Pairwise (fun a b => a.index ≠ b.index) := by
    rw [List.Nodup, List.pairwise_map] at hnd3
    exact hnd3
  have hle : (selectTop scored k).Pairwise (fun a b => a.index ≤ b.index) := hsorted
  exact (hle.and hpw).imp (fun hab => Nat.lt_of_le_of_ne hab.1 hab.2)

theorem nodup_index_of_keeps {F : ℕ × String → Sentence} (hF : KeepsTextIdx F)
    (ss : List String) : ((ss.enum.map F).map Sentence.index).Nodup := by
  rw [enumMap_map_index hF]
  exact List.nodup_range ss.length

/-! ## Claim C1 — order invariant -/

/-- C1 (confirmed).  For every input and every `sentenceCount`, the sentences
selected by `summarizeText` / `summarizeArabicText` appear in strictly
increasing order of original index: the selection `selectTop` applied to any
of the four scorers' output is pairwise strictly increasing in `index`, and on
the normal path both summarizers emit exactly the space-join of such a
selection. -/
theorem c1_order_invariant (nfd : String → String) (bk : ArBackend)
    (det : String → Bool) (ss : List String) (text : String) (k : ℕ) :
    ((selectTop (scoreEnglishSentences ss) k).Pairwise (fun a b => a.index < b.index) ∧
      (selectTop (scoreArabicSentences ss) k).Pairwise (fun a b => a.index < b.index) ∧
      (selectTop (scoreArabicSentencesBasic nfd ss) k).Pairwise (fun a b => a.index < b.index) ∧
      (selectTop (scoreArabicSentencesAdvanced nfd bk ss) k).Pairwise
        (fun a b => a.index < b.index)) ∧
    (trimStr text ≠ "" → ¬ (extractSentences det text).length ≤ k →
      summarizeText det text k =
        joinWith " " ((selectTop
          (if isArabicStr det text then scoreArabicSentences (extractSentences det text)
           else scoreEnglishSentences (extractSentences det text)) k).map Sentence.text) ∧
      summarizeArabicText nfd bk true det text k =
        joinWith " " ((selectTop
          (scoreArabicSentencesAdvanced nfd bk (extractSentences det text)) k).map
            Sentence.text) ∧
      summarizeArabicText nfd bk false det text k =
        joinWith " " ((selectTop
          (scoreArabicSentencesBasic nfd (extractSentences det text)) k).map
            Sentence.text)) := by
  constructor
  · refine ⟨?_, ?_, ?_, ?_⟩
    · exact selectTop_pairwise_lt _ k (nodup_index_of_keeps (keeps_scoreEnBody ss) ss)
    · exact selectTop_pairwise_lt _ k (nodup_index_of_keeps (keeps_scoreArBody ss) ss)
    · exact selectTop_pairwise_lt _ k (nodup_index_of_keeps (keeps_scoreBasicBody nfd ss) ss)
    · exact selectTop_pairwise_lt _ k (nodup_index_of_keeps (keeps_scoreAdvBody nfd bk ss) ss)
  · intro hne hlen
    refine ⟨?_, ?_, ?_⟩
    · unfold summarizeText
      rw [if_neg hne, if_neg hlen]
    · unfold summarizeArabicText
      rw [if_neg hne, if_neg hlen, if_pos rfl]
    · unfold summarizeArabicText
      rw [if_neg hne, if_neg hlen, if_neg (by simp)]

/-- Witness for C1 at a concrete document. -/
theorem c1_order_invariant_witness :
    summarizeText (fun _ => false) "Aa bb cc. Aa bb cc. Dd ee." 1 =
      joinWith " " ((selectTop
        (scoreEnglishSentences (extractSentences (fun _ => false) "Aa bb cc. Aa bb cc. Dd ee."))
        1).map Sentence.text) := by
  have h := (c1_order_invariant id ⟨fun _ => none⟩ (fun _ => false)
    [] "Aa bb cc. Aa bb cc. Dd ee." 1).2
    (by with_unfolding_all decide) (by with_unfolding_all decide)
  have h1 := h.1
  rwa [if_neg (by with_unfolding_all decide)] at h1

/-! ## Claim C2 — short-circuit behaviour -/

/-- C2 (counterexample).  With two sentences separated by a double space,
`summarizeText` on the short-circuit path returns the original text, which
differs from the segmented sentences joined with a single space. -/
theorem c2_shortcircuit_counterexample :
    summarizeText (fun _ => false) "Aa bb.  Cc dd." 5 = "Aa bb.  Cc dd." ∧
    joinWith " " (extractSentences (fun _ => false) "Aa bb.  Cc dd.") = "Aa bb. Cc dd." ∧
    "Aa bb.  Cc dd." ≠ "Aa bb. Cc dd." := by
  refine ⟨?_, ?_, ?_⟩ <;> with_unfolding_all decide

/-- C2 (amended).  If the text is not whitespace-only and its segmentation
yields at most `sentenceCount` sentences, `summarizeText` (and likewise
`summarizeArabicText`) returns the original text unchanged — not the
space-join of the segmented sentences. -/
theorem c2_shortcircuit_returns_text (nfd : String → String) (bk : ArBackend)
    (hasLib : Bool) (det : String → Bool) (text : String) (k : ℕ)
    (hne : trimStr text ≠ "") (hlen : (extractSentences det text).length ≤ k) :
    summarizeText det text k = text ∧
    summarizeArabicText nfd bk hasLib det text k = text := by
  constructor
  · unfold summarizeText
    rw [if_neg hne, if_pos hlen]
  · unfold summarizeArabicText
    rw [if_neg hne, if_pos hlen]

/-- Witness for the amended C2. -/
theorem c2_shortcircuit_returns_text_witness :
    summarizeText (fun _ => false) "Aa bb.  Cc dd." 5 = "Aa bb.  Cc dd." ∧
    summarizeArabicText id ⟨fun _ => none⟩ true (fun _ => false) "Aa bb.  Cc dd." 5 =
      "Aa bb.  Cc dd." :=
  c2_shortcircuit_returns_text id ⟨fun _ => none⟩ true (fun _ => false) "Aa bb.  Cc dd." 5
    (by with_unfolding_all decide) (by with_unfolding_all decide)

/-! ## Claim C3 — minimum-length zeroing -/

/-- C3 (counterexample).  The advanced Arabic scorer does *not* zero sentences
below the 2-token minimum: a single 25-character token is one whitespace token
(below the minimum) yet scores `3/2`, because that scorer zeroes on raw
character length `< 20` instead of token count. -/
theorem c3_zeroing_counterexample :
    (splitWs "abcdefghijklmnopqrstuvwxy").length < 2 ∧
    (scoreArabicSentencesAdvanced id ⟨fun _ => none⟩ ["abcdefghijklmnopqrstuvwxy"]).map
      Sentence.score = [3/2] ∧
    ((3 : ℚ)/2) ≠ 0 := by
  refine ⟨?_, ?_, ?_⟩ <;> with_unfolding_all decide

/-- C3 (amended).  Sentences below the language-specific minimum token count
score exactly `0` and stay in the output sequence for `scoreEnglishSentences`
(3 tokens), `scoreArabicSentences` and `scoreArabicSentencesBasic` (2 tokens);
`scoreArabicSentencesAdvanced` instead zeroes — likewise keeping the sentence —
exactly when the sentence's raw character length is below 20.  All four
scorers preserve the length of the sequence. -/
theorem c3_minimum_token_zeroing (nfd : String → String) (bk : ArBackend)
    (ss : List String) (i : ℕ) (t : String) (hget : ss[i]? = some t) :
    ((wordsEn t).length < 3 → (scoreEnglishSentences ss)[i]? = some ⟨t, 0, i⟩) ∧
    ((splitWs t).length < 2 → (scoreArabicSentences ss)[i]? = some ⟨t, 0, i⟩) ∧
    ((splitWs t).length < 2 → (scoreArabicSentencesBasic nfd ss)[i]? = some ⟨t, 0, i⟩) ∧
    (t.length < 20 → (scoreArabicSentencesAdvanced nfd bk ss)[i]? = some ⟨t, 0, i⟩) ∧
    (scoreEnglishSentences ss).length = ss.length ∧
    (scoreArabicSentences ss).length = ss.length ∧
    (scoreArabicSentencesBasic nfd ss).length = ss.length ∧
    (scoreArabicSentencesAdvanced nfd bk ss).length = ss.length := by
  refine ⟨?_, ?_, ?_, ?_, ?_, ?_, ?_, ?_⟩
  · intro hlt
    unfold scoreEnglishSentences
    rw [enumMap_getElem?, hget, Option.map_some']
    unfold scoreEnBody
    rw [if_pos hlt]
  · intro hlt
    unfold scoreArabicSentences
    rw [enumMap_getElem?, hget, Option.map_some']
    unfold scoreArBody
    rw [if_pos hlt]
  · intro hlt
    unfold scoreArabicSentencesBasic
    rw [enumMap_getElem?, hget, Option.map_some']
    unfold scoreBasicBody
    rw [if_pos hlt]
  · intro hlt
    unfold scoreArabicSentencesAdvanced
    rw [enumMap_getElem?, hget, Option.map_some']
    unfold scoreAdvBody
    rw [if_pos hlt]
  · exact enumMap_length _ ss
  · exact enumMap_length _ ss
  · exact enumMap_length _ ss
  · exact enumMap_length _ ss

/-- Witness for the amended C3 at a concrete document: the one-token second
sentence scores `0` for every minimum-based scorer and stays at its index. -/
theorem c3_minimum_token_zeroing_witness :
    (scoreEnglishSentences ["Aa bb cc dd.", "Ee"])[1]? = some ⟨"Ee", 0, 1⟩ ∧
    (scoreArabicSentences ["Aa bb cc dd.", "Ee"])[1]? = some ⟨"Ee", 0, 1⟩ ∧
    (scoreArabicSentencesBasic id ["Aa bb cc dd.", "Ee"])[1]? = some ⟨"Ee", 0, 1⟩ ∧
    (scoreArabicSentencesAdvanced id ⟨fun _ => none⟩ ["Aa bb cc dd.", "Ee"])[1]? =
      some ⟨"Ee", 0, 1⟩ := by
  have h := c3_minimum_token_zeroing id ⟨fun _ => none⟩ ["Aa bb cc dd.", "Ee"] 1 "Ee"
    (by with_unfolding_all decide)
  exact ⟨h.1 (by with_unfolding_all decide), h.2.1 (by with_unfolding_all decide),
    h.2.2.1 (by with_unfolding_all decide), h.2.2.2.1 (by with_unfolding_all decide)⟩

/-! ## Claim C4 — positional boosts -/

/-- C4 (counterexample).  `scoreArabicSentences` (the Arabic scorer of
`summarizer.ts`) multiplies the first sentence's score by `1.25`, not `1.5`:
on a three-sentence document with base score `6`, the first sentence scores
`15/2 = 1.25 × 6`, not `9 = 1.5 × 6`. -/
theorem c4_first_boost_counterexample :
    (scoreArabicSentences ["ab ab", "ab ab", "ab ab"]).map Sentence.score = [15/2, 6, 15/2] ∧
    arBase ["ab ab", "ab ab", "ab ab"] "ab ab" = 6 ∧
    ((15 : ℚ)/2) ≠ (3/2) * 6 := by
  refine ⟨?_, ?_, ?_⟩ <;> with_unfolding_all decide

/-- C4 (amended).  Every scorer's output at index `i` is its pre-boost score
times its positional factor (times its marker factor where one exists), and
the positional factors are: first sentence `×1.5` for the two
`arabicSummarizer.ts` scorers but `×1.25` for both `summarizer.ts` scorers;
last sentence `×1.3` resp. `×1.25` (all within `[1.25, 1.5]`); other
sentences in the first 20% resp. 10% of the document `×1.2` resp. `×1.1`
(all within `[1.1, 1.2]`). -/
theorem c4_positional_boosts (nfd : String → String) (bk : ArBackend) (ss : List String)
    (i : ℕ) (t : String) (hget : ss[i]? = some t) :
    ((scoreEnglishSentences ss)[i]? = some ⟨t, enBase ss t * enPosFactor i ss.length, i⟩) ∧
    ((scoreArabicSentences ss)[i]? =
      some ⟨t, arBase ss t * arPosFactor i ss.length * arMarkerFactor t, i⟩) ∧
    ((scoreArabicSentencesBasic nfd ss)[i]? =
      some ⟨t, basicBase nfd ss t * basicPosFactor i ss.length * basicMarkerFactor t, i⟩) ∧
    (20 ≤ t.length →
      (scoreArabicSentencesAdvanced nfd bk ss)[i]? =
        some ⟨t, advBase nfd bk ss t * advPosFactor i ss.length * advMarkerFactor t, i⟩) ∧
    (enPosFactor 0 ss.length = 5/4 ∧ arPosFactor 0 ss.length = 5/4 ∧
      basicPosFactor 0 ss.length = 3/2 ∧ advPosFactor 0 ss.length = 3/2) ∧
    (2 ≤ ss.length →
      enPosFactor (ss.length - 1) ss.length = 5/4 ∧
      arPosFactor (ss.length - 1) ss.length = 5/4 ∧
      basicPosFactor (ss.length - 1) ss.length = 13/10 ∧
      advPosFactor (ss.length - 1) ss.length = 13/10) ∧
    (0 < i → i ≠ ss.length - 1 →
      ((i : ℚ) < (ss.length : ℚ) * 0.1 →
        enPosFactor i ss.length = 11/10 ∧ arPosFactor i ss.length = 11/10) ∧
      ((i : ℚ) < (ss.length : ℚ) * 0.2 →
        basicPosFactor i ss.length = 6/5 ∧ advPosFactor i ss.length = 6/5)) := by
  have hi0 : i ≠ 0 → ¬ (i = 0) := fun h => h
  refine ⟨?_, ?_, ?_, ?_, ?_, ?_, ?_⟩
  · unfold scoreEnglishSentences
    rw [enumMap_getElem?, hget, Option.map_some']
    unfold scoreEnBody
    split
    · rename_i hlt
      have hb : enBase ss t = 0 := by
        unfold enBase
        rw [if_pos hlt]
      rw [hb, zero_mul]
    · rfl
  · unfold scoreArabicSentences
    rw [enumMap_getElem?, hget, Option.map_some']
    unfold scoreArBody
    split
    · rename_i hlt
      have hb : arBase ss t = 0 := by
        unfold arBase
        rw [if_pos hlt]
      rw [hb, zero_mul, zero_mul]
    · rfl
  · unfold scoreArabicSentencesBasic
    rw [enumMap_getElem?, hget, Option.map_some']
    unfold scoreBasicBody
    split
    · rename_i hlt
      have hb : basicBase nfd ss t = 0 := by
        unfold basicBase
        rw [if_pos hlt]
      rw [hb, zero_mul, zero_mul]
    · rfl
  · intro hlen
    unfold scoreArabicSentencesAdvanced
    rw [enumMap_getElem?, hget, Option.map_some']
    unfold scoreAdvBody
    have hx : ¬ ((i, t).2.length < 20) := by
      show ¬ t.length < 20
      omega
    rw [if_neg hx]
  · refine ⟨?_, ?_, ?_, ?_⟩
    · unfold enPosFactor
      rw [if_pos (Or.inl rfl)]
      norm_num
    · unfold arPosFactor
      rw [if_pos (Or.inl rfl)]
      norm_num
    · unfold basicPosFactor
      rw [if_pos rfl]
      norm_num
    · unfold advPosFactor
      rw [if_pos rfl]
      norm_num
  · intro hn
    refine ⟨?_, ?_, ?_, ?_⟩
    · unfold enPosFactor
      rw [if_pos (Or.inr rfl)]
      norm_num
    · unfold arPosFactor
      rw [if_pos (Or.inr rfl)]
      norm_num
    · unfold basicPosFactor
      rw [if_neg (by omega), if_pos rfl]
      norm_num
    · unfold advPosFactor
      rw [if_neg (by omega), if_pos rfl]
      norm_num
  · intro hpos hne
    constructor
    · intro hq
      constructor
      · unfold enPosFactor
        rw [if_neg (by omega), if_pos hq]
        norm_num
      · unfold arPosFactor
        rw [if_neg (by omega), if_pos hq]
        norm_num
    · intro hq
      constructor
      · unfold basicPosFactor
        rw [if_neg (by omega), if_neg hne, if_pos hq]
        norm_num
      · unfold advPosFactor
        rw [if_neg (by omega), if_neg hne, if_pos hq]
        norm_num

/-- Witness for the amended C4, on an 11-sentence document (index 1 lies in
the first 10%, so every factor case is exercised). -/
theorem c4_positional_boosts_witness :
    ((scoreEnglishSentences (List.replicate 11 "Aa bb cc dd ee ff gg zz."))[1]? =
      some ⟨"Aa bb cc dd ee ff gg zz.",
        enBase (List.replicate 11 "Aa bb cc dd ee ff gg zz.") "Aa bb cc dd ee ff gg zz." *
          enPosFactor 1 (List.replicate 11 "Aa bb cc dd ee ff gg zz.").length, 1⟩) ∧
    ((scoreArabicSentencesAdvanced id ⟨fun _ => none⟩
        (List.replicate 11 "Aa bb cc dd ee ff gg zz."))[1]? =
      some ⟨"Aa bb cc dd ee ff gg zz.",
        advBase id ⟨fun _ => none⟩ (List.replicate 11 "Aa bb cc dd ee ff gg zz.")
            "Aa bb cc dd ee ff gg zz." *
          advPosFactor 1 (List.replicate 11 "Aa bb cc dd ee ff gg zz.").length *
          advMarkerFactor "Aa bb cc dd ee ff gg zz.", 1⟩) ∧
    enPosFactor 0 11 = 5/4 ∧ basicPosFactor 0 11 = 3/2 ∧
    enPosFactor 10 11 = 5/4 ∧ basicPosFactor 10 11 = 13/10 ∧
    enPosFactor 1 11 = 11/10 ∧ basicPosFactor 1 11 = 6/5 := by
  have h := c4_positional_boosts id ⟨fun _ => none⟩
    (List.replicate 11 "Aa bb cc dd ee ff gg zz.") 1 "Aa bb cc dd ee ff gg zz."
    (by with_unfolding_all decide)
  have hearly := h.2.2.2.2.2.2 (by decide) (by decide)
  exact ⟨h.1, h.2.2.2.1 (by decide), h.2.2.2.2.1.1, h.2.2.2.2.1.2.2.1,
    (h.2.2.2.2.2.1 (by decide)).1, (h.2.2.2.2.2.1 (by decide)).2.2.1,
    (hearly.1 (by with_unfolding_all decide)).1,
    (hearly.2 (by with_unfolding_all decide)).1⟩

/-! ## Claim C5 — backend error recovery in the advanced scorer -/

/-- C5 (confirmed).  In `scoreArabicSentencesAdvanced`, a backend that throws
for a sentence (`bk.run s = none`) contributes that sentence's tokens by
whitespace splitting instead; the error never escapes the scorer: scoring
completes with one scored sentence per input sentence, in order, regardless of
the backend's behaviour. -/
theorem c5_backend_error_recovery (nfd : String → String) (bk : ArBackend)
    (ss : List String) (s : String) (herr : bk.run s = none) :
    advWords bk s = splitWs s ∧
    advNouns bk s = [] ∧
    (scoreArabicSentencesAdvanced nfd bk ss).length = ss.length ∧
    (scoreArabicSentencesAdvanced nfd bk ss).map Sentence.text = ss ∧
    (scoreArabicSentencesAdvanced nfd bk ss).map Sentence.index =
      List.range ss.length := by
  refine ⟨?_, ?_, ?_, ?_, ?_⟩
  · unfold advWords
    rw [herr]
  · unfold advNouns
    rw [herr]
  · exact enumMap_length _ ss
  · exact enumMap_map_text (keeps_scoreAdvBody nfd bk ss) ss
  · exact enumMap_map_index (keeps_scoreAdvBody nfd bk ss) ss

/-- Witness for C5: a backend that always throws still lets scoring complete,
with whitespace tokens. -/
theorem c5_backend_error_recovery_witness :
    advWords ⟨fun _ => none⟩ "ab cd" = ["ab", "cd"] ∧
    (scoreArabicSentencesAdvanced id ⟨fun _ => none⟩ ["ab cd", "ef"]).length = 2 ∧
    (scoreArabicSentencesAdvanced id ⟨fun _ => none⟩ ["ab cd", "ef"]).map Sentence.text =
      ["ab cd", "ef"] := by
  have h := c5_backend_error_recovery id ⟨fun _ => none⟩ ["ab cd", "ef"] "ab cd" rfl
  refine ⟨?_, h.2.2.1, h.2.2.2.1⟩
  rw [h.1]
  with_unfolding_all decide

/-! ## Claim C6 — the facade failure path -/

/-- The `try`-body of `summarizeText` after the blank-input check (the
segmentation/scoring/selection pipeline). -/
def summarizeCore (det : String → Bool) (text : String) (k : ℕ) : String :=
  let ss := extractSentences det text
  if ss.length ≤ k then text
  else
    let scored :=
      if isArabicStr det text then scoreArabicSentences ss else scoreEnglishSentences ss
    joinWith " " ((selectTop scored k).map Sentence.text)

/-- The fallback exactly as the claim words it: the original text split on
literal periods, truncated to the first `sentenceCount` fragments, re-joined
on periods (no trimming), empty replaced by the original text.  Stated for
comparison with the source's `fallbackTruncate`. -/
def fallbackClaimed (text : String) (k : ℕ) : String :=
  let t := joinWith "." ((splitDots text).take k)
  if t = "" then text else t

/-- C6 (counterexample).  The source trims the re-joined fragments before the
emptiness test (`….join('.').trim() || text`); the claim omits the trim.  On
`" . b"` with `sentenceCount = 1` the code's fallback returns the original
text (the trimmed fragment is empty), while the claim's wording predicts the
single fragment `" "`. -/
theorem c6_fallback_counterexample :
    summarizeTextWithErr (fun _ _ => Except.error ()) " . b" 1 = " . b" ∧
    fallbackClaimed " . b" 1 = " " ∧
    " . b" ≠ " " := by
  refine ⟨?_, ?_, ?_⟩ <;> with_unfolding_all decide

/-- C6 (amended).  `summarizeText` is a total function (it never throws, by
construction of the model): blank input yields `""`; when the pipeline
signals an internal error the result is the original text split on literal
periods, truncated to the first `sentenceCount` fragments, re-joined on
periods *and trimmed*, with the original text as last resort when that
trimmed string is empty; and the non-throwing pipeline embeds into the
`try`/`catch` model. -/
theorem c6_error_fallback (run : String → ℕ → Except Unit String)
    (det : String → Bool) (text : String) (k : ℕ) (e : Unit)
    (herr : run text k = Except.error e) :
    (trimStr text = "" → summarizeTextWithErr run text k = "") ∧
    (trimStr text ≠ "" → summarizeTextWithErr run text k = fallbackTruncate text k) ∧
    (trimStr (joinWith "." ((splitDots text).take k)) = "" → fallbackTruncate text k = text) ∧
    (trimStr (joinWith "." ((splitDots text).take k)) ≠ "" →
      fallbackTruncate text k = trimStr (joinWith "." ((splitDots text).take k))) ∧
    summarizeText det text k =
      summarizeTextWithErr (fun t n => Except.ok (summarizeCore det t n)) text k := by
  refine ⟨?_, ?_, ?_, ?_, ?_⟩
  · intro hb
    unfold summarizeTextWithErr
    rw [if_pos hb]
  · intro hb
    unfold summarizeTextWithErr
    rw [if_neg hb, herr]
  · intro hb
    unfold fallbackTruncate
    rw [if_pos hb]
  · intro hb
    unfold fallbackTruncate
    rw [if_neg hb]
  · unfold summarizeText summarizeTextWithErr summarizeCore
    split
    · rfl
    · rfl

/-- Witness for the amended C6 on a concrete erroring pipeline. -/
theorem c6_error_fallback_witness :
    summarizeTextWithErr (fun _ _ => Except.error ()) "" 2 = "" ∧
    summarizeTextWithErr (fun _ _ => Except.error ()) "Aa bb. Cc dd. Ee." 2 =
      fallbackTruncate "Aa bb. Cc dd. Ee." 2 ∧
    fallbackTruncate "Aa bb. Cc dd. Ee." 2 =
      trimStr (joinWith "." ((splitDots "Aa bb. Cc dd. Ee.").take 2)) ∧
    summarizeText (fun _ => false) "Aa bb. Cc dd. Ee." 2 =
      summarizeTextWithErr
        (fun t n => Except.ok (summarizeCore (fun _ => false) t n)) "Aa bb. Cc dd. Ee." 2 := by
  have h0 := c6_error_fallback (fun _ _ => Except.error ()) (fun _ => false) "" 2 () rfl
  have h := c6_error_fallback (fun _ _ => Except.error ()) (fun _ => false)
    "Aa bb. Cc dd. Ee." 2 () rfl
  exact ⟨h0.1 (by with_unfolding_all decide), h.2.1 (by with_unfolding_all decide),
    h.2.2.2.1 (by with_unfolding_all decide), h.2.2.2.2⟩

/-! ## Claim C7 — response-field projection (`filterResultFields`, `index.ts`)

Result records are association lists with (JavaScript-object) string keys;
`lookupField r f = some v` models `field in result` together with
`result[field]`, and `setField` models property assignment. -/

/-- A result record (e.g. the `SummaryResult`), as a key–value list. -/
def ResultRec (α : Type) : Type := List (String × α)

/-- The keys of a record. -/
def recKeys {α : Type} (r : ResultRec α) : List String := r.map Prod.fst

/-- `result[field]` / the `field in result` test. -/
def lookupField {α : Type} : ResultRec α → String → Option α
  | [], _ => none
  | (k, v) :: t, f => if k = f then some v else lookupField t f

/-- `filteredResult[field] = value` (overwrite or append). -/
def setField {α : Type} : ResultRec α → String → α → ResultRec α
  | [], f, v => [(f, v)]
  | (k, w) :: t, f, v => if k = f then (k, v) :: t else (k, w) :: setField t f v

/-- `delete filteredResult[field]`. -/
def removeField {α : Type} (r : ResultRec α) (f : String) : ResultRec α :=
  r.filter (fun p => p.1 ≠ f)

/-- The `responseStructure` option: a bare inclusion array, or an object with
optional `include` / `exclude` arrays (`none` models an absent property). -/
inductive ResponseStructure where
  | arr (fields : List String)
  | obj (inc exc : Option (List String))

/-- The error thrown when both `include` and `exclude` are given. -/
def configErrorMsg : String :=
  "Cannot use both 'include' and 'exclude' in responseStructure simultaneously"

/-- The inclusion-array branch of `filterResultFields`: keep `ok` (unless the
list itself asks for `ok` or the record has no `ok`), then copy the requested
fields that exist in the record, in list order. -/
def filterByInclude {α : Type} (r : ResultRec α) (fields : List String) : ResultRec α :=
  let includeOk := !fields.contains "ok" && (recKeys r).contains "ok"
  let base : ResultRec α :=
    if includeOk then
      match lookupField r "ok" with
      | some v => [("ok", v)]
      | none => []
    else []
  fields.foldl (fun acc f =>
    match lookupField r f with
    | some v => setField acc f v
    | none => acc) base

/-- `filterResultFields(result, responseStructure)` of `index.ts`;
`Except.error` models the thrown configuration error. -/
def filterResultFields {α : Type} (r : ResultRec α) :
    ResponseStructure → Except String (ResultRec α)
  | ResponseStructure.arr fields => Except.ok (filterByInclude r fields)
  | ResponseStructure.obj (some _) (some _) => Except.error configErrorMsg
  | ResponseStructure.obj (some inc) none => Except.ok (filterByInclude r inc)
  | ResponseStructure.obj none (some exc) => Except.ok (exc.foldl removeField r)
  | ResponseStructure.obj none none => Except.ok r

theorem mem_recKeys_iff_lookup {α : Type} (r : ResultRec α) (f : String) :
    f ∈ recKeys r ↔ ∃ v, lookupField r f = some v := by
  induction r with
  | nil => simp [recKeys, lookupField]
  | cons p t ih =>
    obtain ⟨k, v⟩ := p
    by_cases h : k = f
    · subst h
      simp [recKeys, lookupField]
    · simp only [recKeys, List.map_cons, List.mem_cons, lookupField, if_neg h]
      rw [recKeys] at ih
      rw [ih]
      constructor
      · rintro (h1 | h2)
        · exact absurd h1.symm h
        · exact h2
      · intro h1
        exact Or.inr h1

theorem mem_recKeys_setField {α : Type} (acc : ResultRec α) (f g : String) (v : α) :
    g ∈ recKeys (setField acc f v) ↔ g = f ∨ g ∈ recKeys acc := by
  induction acc with
  | nil => simp [setField, recKeys, eq_comm]
  | cons p t ih =>
    obtain ⟨k, w⟩ := p
    by_cases h : k = f
    · subst h
      have hset : setField ((k, w) :: t) k v = (k, v) :: t := by
        simp [setField]
      rw [hset]
      simp only [recKeys, List.map_cons, List.mem_cons]
      tauto
    · have hset : setField ((k, w) :: t) f v = (k, w) :: setField t f v := by
        simp [setField, h]
      rw [hset]
      simp only [recKeys, List.map_cons, List.mem_cons]
      rw [recKeys] at ih
      rw [ih]
      tauto

theorem mem_recKeys_foldlInclude {α : Type} (r : ResultRec α) (l : List String)
    (acc : ResultRec α) (g : String) :
    g ∈ recKeys (l.foldl (fun acc f =>
        match lookupField r f with
        | some v => setField acc f v
        | none => acc) acc) ↔
      g ∈ recKeys acc ∨ (g ∈ l ∧ g ∈ recKeys r) := by
  induction l generalizing acc with
  | nil => simp
  | cons f l ih =>
    rw [List.foldl_cons, ih]
    rcases hl : lookupField r f with _ | v
    · simp only [List.mem_cons]
      constructor
      · rintro (h1 | h2)
        · exact Or.inl h1
        · exact Or.inr ⟨Or.inr h2.1, h2.2⟩
      · rintro (h1 | ⟨(rfl | h2), h3⟩)
        · exact Or.inl h1
        · rw [mem_recKeys_iff_lookup] at h3
          obtain ⟨v, hv⟩ := h3
          rw [hv] at hl
          exact absurd hl (by simp)
        · exact Or.inr ⟨h2, h3⟩
    · rw [mem_recKeys_setField]
      simp only [List.mem_cons]
      constructor
      · rintro ((h1 | h1) | h2)
        · subst h1
          refine Or.inr ⟨Or.inl rfl, ?_⟩
          rw [mem_recKeys_iff_lookup]
          exact ⟨v, hl⟩
        · exact Or.inl h1
        · exact Or.inr ⟨Or.inr h2.1, h2.2⟩
      · rintro (h1 | ⟨(rfl | h2), h3⟩)
        · exact Or.inl (Or.inr h1)
        · exact Or.inl (Or.inl rfl)
        · exact Or.inr ⟨h2, h3⟩

/-- C7 (confirmed).  `filterResultFields` throws the configuration error
whenever both `include` and `exclude` are present; an object carrying only an
inclusion array behaves like the bare array, whose output contains exactly
`ok` plus those listed fields that exist in the input record; an object with
neither array passes the record through unchanged. -/
theorem c7_projection_contract {α : Type} (r : ResultRec α) (inc exc l : List String)
    (f : String) (hok : "ok" ∈ recKeys r) :
    filterResultFields r (ResponseStructure.obj (some inc) (some exc)) =
      Except.error configErrorMsg ∧
    filterResultFields r (ResponseStructure.obj (some l) none) =
      Except.ok (filterByInclude r l) ∧
    filterResultFields r (ResponseStructure.arr l) = Except.ok (filterByInclude r l) ∧
    (f ∈ recKeys (filterByInclude r l) ↔ f = "ok" ∨ (f ∈ l ∧ f ∈ recKeys r)) ∧
    filterResultFields r (ResponseStructure.obj none none) = Except.ok r := by
  refine ⟨rfl, rfl, rfl, ?_, rfl⟩
  unfold filterByInclude
  rw [mem_recKeys_foldlInclude]
  by_cases hmem : "ok" ∈ l
  · have hcont : l.contains "ok" = true := List.elem_iff.mpr hmem
    rw [hcont]
    simp only [Bool.not_true, Bool.false_and, Bool.false_eq_true, if_false]
    simp only [recKeys, List.map_nil, List.mem_nil_iff, false_or]
    constructor
    · intro h1
      exact Or.inr h1
    · rintro (rfl | h1)
      · exact ⟨hmem, hok⟩
      · exact h1
  · have hcont : l.contains "ok" = false := by
      rw [← Bool.not_eq_true]
      simpa [List.elem_iff] using hmem
    have hcontk : (recKeys r).contains "ok" = true := List.elem_iff.mpr hok
    rw [hcont, hcontk]
    simp only [Bool.not_false, Bool.true_and, if_true]
    obtain ⟨v, hv⟩ := (mem_recKeys_iff_lookup r "ok").mp hok
    rw [hv]
    simp only [recKeys, List.map_cons, List.map_nil, List.mem_cons, List.mem_nil_iff, or_false]

/-- Witness for C7 on the record of Scenario D. -/
theorem c7_projection_contract_witness :
    filterResultFields [("ok", "true"), ("summary", "s"), ("topics", "t")]
        (ResponseStructure.obj (some ["summary"]) (some ["topics"])) =
      Except.error configErrorMsg ∧
    ("summary" ∈ recKeys (filterByInclude
        [("ok", "true"), ("summary", "s"), ("topics", "t")] ["summary"]) ↔
      "summary" = "ok" ∨ ("summary" ∈ ["summary"] ∧
        "summary" ∈ recKeys [("ok", "true"), ("summary", "s"), ("topics", "t")])) ∧
    filterResultFields [("ok", "true"), ("summary", "s"), ("topics", "t")]
        (ResponseStructure.obj none none) =
      Except.ok [("ok", "true"), ("summary", "s"), ("topics", "t")] := by
  have h := c7_projection_contract [("ok", "true"), ("summary", "s"), ("topics", "t")]
    ["summary"] ["topics"] ["summary"] "summary" (by decide)
  exact ⟨h.1, h.2.2.2.1, h.2.2.2.2⟩

/-! ## Claim C8 — normalization idempotence -/

theorem ofNat_small_toNat (n : ℕ) (h : n < 0xd800) : (Char.ofNat n).toNat = n := by
  unfold Char.ofNat
  rw [dif_pos ?_]
  · rfl
  · exact Or.inl (by omega)

theorem charLower_idem (c : Char) : charLower (charLower c) = charLower c := by
  unfold charLower
  by_cases h : ('A' ≤ c && c ≤ 'Z') = true
  · have hcopy := h
    simp only [Bool.and_eq_true, decide_eq_true_eq] at hcopy
    obtain ⟨h1, h2⟩ := hcopy
    rw [Char.le_def] at h1 h2
    have hv1 : 65 ≤ c.toNat := h1
    have hv2 : c.toNat ≤ 90 := h2
    have hno : ¬ (('A' ≤ Char.ofNat (c.toNat + 32) &&
        Char.ofNat (c.toNat + 32) ≤ 'Z') = true) := by
      simp only [Bool.and_eq_true, decide_eq_true_eq]
      rintro ⟨g1, g2⟩
      rw [Char.le_def] at g2
      have hle : (Char.ofNat (c.toNat + 32)).toNat ≤ 90 := g2
      rw [ofNat_small_toNat (c.toNat + 32) (by omega)] at hle
      omega
    rw [if_pos h, if_neg hno]
  · rw [if_neg h, if_neg h]

theorem lowerStr_idem (s : String) : lowerStr (lowerStr s) = lowerStr s := by
  unfold lowerStr
  rw [List.map_map]
  have h : (charLower ∘ charLower) = charLower := funext charLower_idem
  rw [h]

theorem stripDiacritics_idem (s : String) :
    stripDiacritics (stripDiacritics s) = stripDiacritics s := by
  unfold stripDiacritics
  congr 1
  show List.filter _ (List.filter _ s.data) = _
  exact List.filter_eq_self.mpr (fun a ha => (List.mem_filter.mp ha).2)

/-- A computable model of the Arabic-block fragment of Unicode canonical
decomposition at the character level: the precomposed madda/hamza letters
`U+0622`–`U+0626` decompose into base letter plus combining mark
(e.g. `U+0623` → `U+0627 U+0654`); every other character is atomic. -/
def decomposeAr (c : Char) : List Char :=
  if c.toNat = 0x622 then [Char.ofNat 0x627, Char.ofNat 0x653]
  else if c.toNat = 0x623 then [Char.ofNat 0x627, Char.ofNat 0x654]
  else if c.toNat = 0x624 then [Char.ofNat 0x648, Char.ofNat 0x654]
  else if c.toNat = 0x625 then [Char.ofNat 0x627, Char.ofNat 0x655]
  else if c.toNat = 0x626 then [Char.ofNat 0x64A, Char.ofNat 0x654]
  else [c]

/-- The string-level decomposition built from `decomposeAr` — a concrete
instance of the `nfd` parameter modelling `normalize('NFD')` on Arabic
tokens. -/
def arabicNFD (s : String) : String :=
  ⟨(s.data.map decomposeAr).flatten⟩

/-- Every character produced by `decomposeAr` is atomic, so a decomposed
string is stable under further decomposition. -/
theorem decomposeAr_stable (d c : Char) (hc : c ∈ decomposeAr d) :
    decomposeAr c = [c] := by
  unfold decomposeAr at hc
  split_ifs at hc with h1 h2 h3 h4 h5
  · simp at hc
    rcases hc with rfl | rfl <;> decide
  · simp at hc
    rcases hc with rfl | rfl <;> decide
  · simp at hc
    rcases hc with rfl | rfl <;> decide
  · simp at hc
    rcases hc with rfl | rfl <;> decide
  · simp at hc
    rcases hc with rfl | rfl <;> decide
  · simp at hc
    subst hc
    unfold decomposeAr
    rw [if_neg h1, if_neg h2, if_neg h3, if_neg h4, if_neg h5]

theorem flatten_decomposeAr_stable :
    ∀ m : List Char, (∀ c ∈ m, decomposeAr c = [c]) →
      (m.map decomposeAr).flatten = m := by
  intro m
  induction m with
  | nil =>
    intro _
    rfl
  | cons a t ih =>
    intro h
    rw [List.map_cons, List.flatten_cons, h a (List.mem_cons_self a t),
      ih (fun c hc => h c (List.mem_cons_of_mem a hc))]
    rfl

/-- `arabicNFD` output, even after deleting characters, is stable under
renewed decomposition — the property real Unicode NFD has as well (deleting
code points from a canonically decomposed string leaves it canonically
decomposed). -/
theorem arabicNFD_strip_stable (s : String) :
    arabicNFD (stripDiacritics (arabicNFD s)) = stripDiacritics (arabicNFD s) := by
  have hstab : ∀ c ∈ (arabicNFD s).data, decomposeAr c = [c] := by
    intro c hc
    have hc2 : c ∈ (s.data.map decomposeAr).flatten := hc
    obtain ⟨m, hm, hcm⟩ := List.mem_flatten.mp hc2
    obtain ⟨d, _, rfl⟩ := List.mem_map.mp hm
    exact decomposeAr_stable d c hcm
  have hstab2 : ∀ c ∈ (stripDiacritics (arabicNFD s)).data, decomposeAr c = [c] := by
    intro c hc
    exact hstab c (List.mem_of_mem_filter hc)
  show String.mk ((stripDiacritics (arabicNFD s)).data.map decomposeAr).flatten = _
  rw [flatten_decomposeAr_stable _ hstab2]

/-- C8 (confirmed).  Token normalization is idempotent: English lowercasing
satisfies `lower (lower t) = lower t` outright, and the Arabic normalization
`strip ∘ nfd` is idempotent for every decomposition function `nfd` whose
stripped output is stable under renewed decomposition
(`nfd (strip (nfd s)) = strip (nfd s)`).  Unicode NFD has this property:
deleting code points from a canonically decomposed string leaves it
canonically decomposed.  (NFD does *not* commute with the strip —
`NFD(U+0623) = U+0627 U+0654` and `U+0654` is in the stripped range — so
stability, not commutation, is the right hypothesis; `arabicNFD` exhibits
this behaviour and satisfies it.) -/
theorem c8_normalization_idempotent (nfd : String → String)
    (h2 : ∀ s, nfd (stripDiacritics (nfd s)) = stripDiacritics (nfd s)) :
    (∀ t, lowerStr (lowerStr t) = lowerStr t) ∧
    (∀ w, normalizeArWord nfd (normalizeArWord nfd w) = normalizeArWord nfd w) := by
  constructor
  · exact lowerStr_idem
  · intro w
    unfold normalizeArWord
    rw [h2 w, stripDiacritics_idem]

/-- Witness for C8: `arabicNFD` (which decomposes the hamza letters the way
Unicode NFD does, producing marks in the stripped range) satisfies the
stability hypothesis, and the idempotence equations evaluate on concrete
mixed-case and vocalized hamza-carrying Arabic tokens. -/
theorem c8_normalization_idempotent_witness :
    lowerStr (lowerStr "AbC") = lowerStr "AbC" ∧
    normalizeArWord arabicNFD (normalizeArWord arabicNFD "أَكَلَ") =
      normalizeArWord arabicNFD "أَكَلَ" :=
  ⟨(c8_normalization_idempotent arabicNFD arabicNFD_strip_stable).1 "AbC",
    (c8_normalization_idempotent arabicNFD arabicNFD_strip_stable).2 "أَكَلَ"⟩

/-! ## Claim C9 — non-empty output -/

theorem joinWith_ne_empty (sep : String) :
    ∀ l : List String, l ≠ [] → (∀ s ∈ l, s ≠ "") → joinWith sep l ≠ "" := by
  intro l
  induction l with
  | nil => intro h _; exact absurd rfl h
  | cons a t ih =>
    intro _ hall
    cases t with
    | nil =>
      show a ≠ ""
      exact hall a (List.mem_cons_self a [])
    | cons b t2 =>
      show a ++ sep ++ joinWith sep (b :: t2) ≠ ""
      intro hcon
      have ha : a ≠ "" := hall a (List.mem_cons_self a _)
      have hdata := congrArg String.data hcon
      rw [String.data_append, String.data_append] at hdata
      have hnil : a.data = [] := (List.append_eq_nil.mp (List.append_eq_nil.mp hdata).1).1
      apply ha
      cases a
      rw [show "" = String.mk [] from rfl]
      exact congrArg String.mk hnil

/-- C9 (counterexample).  `summarizeText` with `sentenceCount = 0` returns the
empty string on a text whose sentence sequence is non-empty (three
sentences). -/
theorem c9_nonempty_counterexample :
    (extractSentences (fun _ => false) "Aa bb. Cc dd. Ee ff.").length = 3 ∧
    summarizeText (fun _ => false) "Aa bb. Cc dd. Ee ff." 0 = "" := by
  constructor <;> with_unfolding_all decide

/-- C9 (amended).  `summarizeText` always returns a string (the model is a
total function); it returns a *non-empty* string whenever the input is not
whitespace-only, `sentenceCount ≥ 1`, and every segmented sentence is
non-empty (Arabic segmentation can produce empty trimmed fragments, and
`sentenceCount = 0` produces an empty selection — the two ways the original
claim fails). -/
theorem c9_nonempty_output (det : String → Bool) (text : String) (k : ℕ)
    (hne : trimStr text ≠ "") (hk : 1 ≤ k)
    (hsent : ∀ s ∈ extractSentences det text, s ≠ "") :
    summarizeText det text k ≠ "" := by
  unfold summarizeText
  rw [if_neg hne]
  have htext : text ≠ "" := by
    intro h
    subst h
    exact hne rfl
  by_cases hlen : (extractSentences det text).length ≤ k
  · rw [if_pos hlen]
    exact htext
  · rw [if_neg hlen]
    set ss := extractSentences det text with hss
    set scored := if isArabicStr det text then scoreArabicSentences ss
      else scoreEnglishSentences ss with hscored
    have hmaptext : scored.map Sentence.text = ss := by
      rw [hscored]
      split
      · exact enumMap_map_text (keeps_scoreArBody ss) ss
      · exact enumMap_map_text (keeps_scoreEnBody ss) ss
    have hslen : scored.length = ss.length := by
      rw [hscored]
      split
      · exact enumMap_length _ ss
      · exact enumMap_length _ ss
    have hsel : (selectTop scored k).length = k := by
      rw [selectTop_length, hslen]
      omega
    apply joinWith_ne_empty
    · intro hnil
      have := congrArg List.length hnil
      rw [List.length_map, hsel] at this
      simp at this
      omega
    · intro s hs
      obtain ⟨x, hx, rfl⟩ := List.mem_map.mp hs
      have hxs : x ∈ scored := mem_selectTop hx
      have : x.text ∈ ss := by
        rw [← hmaptext]
        exact List.mem_map_of_mem Sentence.text hxs
      exact hsent x.text this

/-- Witness for the amended C9. -/
theorem c9_nonempty_output_witness :
    summarizeText (fun _ => false) "Aa bb. Cc dd. Ee ff." 1 ≠ "" :=
  c9_nonempty_output (fun _ => false) "Aa bb. Cc dd. Ee ff." 1
    (by with_unfolding_all decide) (by decide) (by with_unfolding_all decide)

/-! ## Claim C10 — the synchronous `summarize` caps the sentence count at 5

`src/index.ts` line 74 passes `Math.min(finalOptions.sentenceCount, 5)` to
`summarizeText`, re-segments the raw summary and slices it to
`finalOptions.sentenceCount`.  The lemmas below show that re-segmenting a
space-join of at most five segmentation fragments cannot produce more than
five sentences. -/

/-- `summarizeText(cleanedText, Math.min(finalOptions.sentenceCount, 5))` —
the raw summary of the synchronous `summarize` (`index.ts`). -/
def summarizeCapped (det : String → Bool) (text : String) (sc : ℕ) : String :=
  summarizeText det text (min sc 5)

/-- `extractSentences(rawSummary).slice(0, finalOptions.sentenceCount)` — the
sentence list joined into the `summary` field of the synchronous
`summarize`. -/
def limitedSummarySentences (det : String → Bool) (text : String) (sc : ℕ) : List String :=
  (extractSentences det (summarizeCapped det text sc)).take sc

/-- The `summary` field of the synchronous `summarize` on the normal path. -/
def summaryOfIndex (det : String → Bool) (text : String) (sc : ℕ) : String :=
  joinWith " " (limitedSummarySentences det text sc)

/-- A Latin sentence terminator is never whitespace. -/
theorem term_not_ws (c : Char) (h : isTermChar c = true) : isWsChar c = false := by
  unfold isTermChar at h
  simp only [Bool.or_eq_true, decide_eq_true_eq] at h
  rcases h with (rfl | rfl) | rfl <;> decide

/-- A Latin sentence terminator is in the Arabic boundary class. -/
theorem term_isArSep (c : Char) (h : isTermChar c = true) : isArSepChar c = true := by
  unfold isTermChar at h
  simp only [Bool.or_eq_true, decide_eq_true_eq] at h
  rcases h with (rfl | rfl) | rfl <;> decide

/-- A space is not in the Arabic boundary class. -/
theorem space_not_arSep : isArSepChar ' ' = false := by decide

/-- An element not satisfying `p` survives `dropWhile p`. -/
theorem mem_dropWhile_of_not {p : Char → Bool} {c : Char} :
    ∀ {l : List Char}, c ∈ l → p c = false → c ∈ l.dropWhile p := by
  intro l
  induction l with
  | nil => intro h; exact absurd h (List.not_mem_nil c)
  | cons x t ih =>
    intro hmem hp
    rcases List.mem_cons.mp hmem with rfl | hmem2
    · rw [List.dropWhile_cons, hp]
      simp only [Bool.false_eq_true, if_false]
      exact List.mem_cons_self c t
    · rw [List.dropWhile_cons]
      by_cases hx : p x = true
      · rw [hx]
        simp only [if_true]
        exact ih hmem2 hp
      · rw [Bool.not_eq_true] at hx
        rw [hx]
        simp only [Bool.false_eq_true, if_false]
        exact List.mem_cons_of_mem x hmem2

/-- A list containing a non-whitespace character trims to a non-empty list. -/
theorem trimChars_ne_nil {l : List Char} {c : Char} (hmem : c ∈ l)
    (hc : isWsChar c = false) : trimChars l ≠ [] := by
  unfold trimChars
  intro hcon
  have h1 : c ∈ l.dropWhile isWsChar := mem_dropWhile_of_not hmem hc
  have h2 : c ∈ (l.dropWhile isWsChar).reverse := List.mem_reverse.mpr h1
  have h3 : c ∈ (l.dropWhile isWsChar).reverse.dropWhile isWsChar :=
    mem_dropWhile_of_not h2 hc
  rw [show ((l.dropWhile isWsChar).reverse.dropWhile isWsChar) =
      (((l.dropWhile isWsChar).reverse.dropWhile isWsChar).reverse).reverse by
    rw [List.reverse_reverse], hcon] at h3
  exact absurd h3 (List.not_mem_nil c)

/-- Characters of a trimmed list are characters of the list. -/
theorem trimChars_subset {l : List Char} {c : Char} (h : c ∈ trimChars l) : c ∈ l := by
  unfold trimChars at h
  have h1 := List.mem_reverse.mp h
  have h2 := (List.dropWhile_suffix isWsChar).subset h1
  have h3 := List.mem_reverse.mp h2
  exact (List.dropWhile_suffix isWsChar).subset h3

/-- The head of a non-empty trimmed list is not whitespace. -/
theorem trimChars_head_not_ws (l : List Char) :
    trimChars l = [] ∨ ∃ c cs, trimChars l = c :: cs ∧ isWsChar c = false := by
  unfold trimChars
  rcases hA : l.dropWhile isWsChar with _ | ⟨c, cs⟩
  · left
    simp
  · right
    have hc : isWsChar c = false := by
      have := List.head?_dropWhile_not isWsChar l
      rw [hA] at this
      simpa using this
    have hsplit : ∀ (L : List Char) (a : Char), isWsChar a = false →
        ∃ M, (L ++ [a]).dropWhile isWsChar = M ++ [a] := by
      intro L
      induction L with
      | nil =>
        intro a ha
        refine ⟨[], ?_⟩
        rw [List.nil_append, List.dropWhile_cons, ha]
        simp
      | cons x t ih =>
        intro a ha
        rw [List.cons_append, List.dropWhile_cons]
        by_cases hx : isWsChar x = true
        · rw [hx]
          simp only [if_true]
          exact ih a ha
        · rw [Bool.not_eq_true] at hx
          rw [hx]
          simp only [Bool.false_eq_true, if_false]
          exact ⟨x :: t, rfl⟩
    have hrev : (c :: cs).reverse = cs.reverse ++ [c] := by
      rw [List.reverse_cons]
    obtain ⟨M, hM⟩ := hsplit cs.reverse c hc
    rw [hrev, hM]
    refine ⟨c, M.reverse, ?_, hc⟩
    rw [List.reverse_append]
    simp

/-! ### Unfolding equations for the splitters -/

theorem splitEnGo_nil_false (cur : List Char) : splitEnGo false cur [] = [cur.reverse] := rfl

theorem splitEnGo_nil_true (cur : List Char) : splitEnGo true cur [] = [[]] := rfl

theorem splitEnGo_cons_true_ws (cur : List Char) (a : Char) (rest : List Char)
    (h : isWsChar a = true) : splitEnGo true cur (a :: rest) = splitEnGo true [] rest := by
  simp [splitEnGo, h]

theorem splitEnGo_cons_true_nws (cur : List Char) (a : Char) (rest : List Char)
    (h : isWsChar a = false) : splitEnGo true cur (a :: rest) = splitEnGo false [a] rest := by
  simp [splitEnGo, h]

theorem splitEnGo_cons_false_split (cur : List Char) (a : Char) (rest : List Char)
    (h : (headIsTerm cur && isWsChar a) = true) :
    splitEnGo false cur (a :: rest) = cur.reverse :: splitEnGo true [] rest := by
  simp [splitEnGo, h]

theorem splitEnGo_cons_false_nosplit (cur : List Char) (a : Char) (rest : List Char)
    (h : (headIsTerm cur && isWsChar a) = false) :
    splitEnGo false cur (a :: rest) = splitEnGo false (a :: cur) rest := by
  simp [splitEnGo, h]

theorem splitRunGo_nil_false (sep : Char → Bool) (cur : List Char) :
    splitRunGo sep false cur [] = [cur.reverse] := rfl

theorem splitRunGo_nil_true (sep : Char → Bool) (cur : List Char) :
    splitRunGo sep true cur [] = [[]] := rfl

theorem splitRunGo_cons_true_sep (sep : Char → Bool) (cur : List Char) (a : Char)
    (rest : List Char) (h : sep a = true) :
    splitRunGo sep true cur (a :: rest) = splitRunGo sep true [] rest := by
  simp [splitRunGo, h]

theorem splitRunGo_cons_true_nsep (sep : Char → Bool) (cur : List Char) (a : Char)
    (rest : List Char) (h : sep a = false) :
    splitRunGo sep true cur (a :: rest) = splitRunGo sep false [a] rest := by
  simp [splitRunGo, h]

theorem splitRunGo_cons_false_sep (sep : Char → Bool) (cur : List Char) (a : Char)
    (rest : List Char) (h : sep a = true) :
    splitRunGo sep false cur (a :: rest) = cur.reverse :: splitRunGo sep true [] rest := by
  simp [splitRunGo, h]

theorem splitRunGo_cons_false_nsep (sep : Char → Bool) (cur : List Char) (a : Char)
    (rest : List Char) (h : sep a = false) :
    splitRunGo sep false cur (a :: rest) = splitRunGo sep false (a :: cur) rest := by
  simp [splitRunGo, h]

/-! ### Structural invariants of the English splitter -/

/-- No fragment of the English splitter contains a terminator directly
followed by whitespace (there the splitter would have split). -/
def okPair (p a : Char) : Prop := ¬ (isTermChar p = true ∧ isWsChar a = true)

theorem splitEnGo_ne_nil (l : List Char) (mode : Bool) (cur : List Char) :
    splitEnGo mode cur l ≠ [] := by
  induction l generalizing mode cur with
  | nil =>
    cases mode
    · rw [splitEnGo_nil_false]
      simp
    · rw [splitEnGo_nil_true]
      simp
  | cons a rest ih =>
    cases mode
    · by_cases hsplit : (headIsTerm cur && isWsChar a) = true
      · rw [splitEnGo_cons_false_split cur a rest hsplit]
        simp
      · rw [Bool.not_eq_true] at hsplit
        rw [splitEnGo_cons_false_nosplit cur a rest hsplit]
        exact ih false (a :: cur)
    · by_cases hws : isWsChar a = true
      · rw [splitEnGo_cons_true_ws cur a rest hws]
        exact ih true []
      · rw [Bool.not_eq_true] at hws
        rw [splitEnGo_cons_true_nws cur a rest hws]
        exact ih false [a]

/-- Every fragment of the English splitter is free of the
terminator-then-whitespace pattern, provided the accumulated fragment is. -/
theorem splitEn_chain (l : List Char) :
    ∀ (mode : Bool) (cur : List Char), List.Chain' okPair cur.reverse →
      ∀ f ∈ splitEnGo mode cur l, List.Chain' okPair f := by
  induction l with
  | nil =>
    intro mode cur hcur f hf
    cases mode
    · rw [splitEnGo_nil_false] at hf
      rw [List.mem_singleton.mp hf]
      exact hcur
    · rw [splitEnGo_nil_true] at hf
      rw [List.mem_singleton.mp hf]
      exact List.chain'_nil
  | cons a rest ih =>
    intro mode cur hcur f hf
    cases mode
    · by_cases hsplit : (headIsTerm cur && isWsChar a) = true
      · rw [splitEnGo_cons_false_split cur a rest hsplit] at hf
        rcases List.mem_cons.mp hf with rfl | hf2
        · exact hcur
        · exact ih true [] List.chain'_nil f hf2
      · rw [Bool.not_eq_true] at hsplit
        rw [splitEnGo_cons_false_nosplit cur a rest hsplit] at hf
        refine ih false (a :: cur) ?_ f hf
        rw [List.reverse_cons]
        rw [List.chain'_append]
        refine ⟨hcur, List.chain'_singleton a, ?_⟩
        intro x hx y hy
        rw [List.getLast?_reverse] at hx
        rw [List.head?_cons, Option.mem_some_iff] at hy
        rintro ⟨hterm, hws⟩
        rw [← hy] at hws
        cases cur with
        | nil => simp at hx
        | cons p t =>
          rw [List.head?_cons, Option.mem_some_iff] at hx
          simp only [headIsTerm] at hsplit
          rw [hx, hterm, hws] at hsplit
          simp at hsplit
    · by_cases hws : isWsChar a = true
      · rw [splitEnGo_cons_true_ws cur a rest hws] at hf
        exact ih true [] List.chain'_nil f hf
      · rw [Bool.not_eq_true] at hws
        rw [splitEnGo_cons_true_nws cur a rest hws] at hf
        exact ih false [a] (List.chain'_singleton a) f hf

/-- Every fragment except the last ends with a sentence terminator. -/
theorem splitEn_dropLast_term (l : List Char) :
    ∀ (mode : Bool) (cur : List Char),
      ∀ f ∈ (splitEnGo mode cur l).dropLast,
        ∃ c, f.getLast? = some c ∧ isTermChar c = true := by
  induction l with
  | nil =>
    intro mode cur f hf
    cases mode
    · rw [splitEnGo_nil_false] at hf
      simp at hf
    · rw [splitEnGo_nil_true] at hf
      simp at hf
  | cons a rest ih =>
    intro mode cur f hf
    cases mode
    · by_cases hsplit : (headIsTerm cur && isWsChar a) = true
      · rw [splitEnGo_cons_false_split cur a rest hsplit] at hf
        rcases hR : splitEnGo true [] rest with _ | ⟨r0, rt⟩
        · exact absurd hR (splitEnGo_ne_nil rest true [])
        · rw [hR, List.dropLast_cons₂] at hf
          rcases List.mem_cons.mp hf with rfl | hf2
          · rw [Bool.and_eq_true] at hsplit
            obtain ⟨hterm, _⟩ := hsplit
            cases cur with
            | nil => exact absurd hterm (by simp [headIsTerm])
            | cons p t =>
              refine ⟨p, ?_, ?_⟩
              · rw [List.getLast?_reverse, List.head?_cons]
              · simpa [headIsTerm] using hterm
          · have := ih true []
            rw [hR] at this
            exact this f hf2
      · rw [Bool.not_eq_true] at hsplit
        rw [splitEnGo_cons_false_nosplit cur a rest hsplit] at hf
        exact ih false (a :: cur) f hf
    · by_cases hws : isWsChar a = true
      · rw [splitEnGo_cons_true_ws cur a rest hws] at hf
        exact ih true [] f hf
      · rw [Bool.not_eq_true] at hws
        rw [splitEnGo_cons_true_nws cur a rest hws] at hf
        exact ih false [a] f hf

/-- Every fragment of the English splitter is empty or starts with a
non-whitespace character, when the accumulated fragment does. -/
theorem splitEn_frag_start (l : List Char) :
    ∀ (mode : Bool) (cur : List Char),
      (mode = false → ∃ a as, cur = as ++ [a] ∧ isWsChar a = false) →
      ∀ f ∈ splitEnGo mode cur l,
        f = [] ∨ ∃ c cs, f = c :: cs ∧ isWsChar c = false := by
  induction l with
  | nil =>
    intro mode cur hcur f hf
    cases mode
    · rw [splitEnGo_nil_false] at hf
      obtain ⟨a, as, rfl, ha⟩ := hcur rfl
      rw [List.mem_singleton.mp hf]
      right
      refine ⟨a, as.reverse, ?_, ha⟩
      rw [List.reverse_append]
      rfl
    · rw [splitEnGo_nil_true] at hf
      rw [List.mem_singleton.mp hf]
      left
      rfl
  | cons a rest ih =>
    intro mode cur hcur f hf
    cases mode
    · by_cases hsplit : (headIsTerm cur && isWsChar a) = true
      · rw [splitEnGo_cons_false_split cur a rest hsplit] at hf
        rcases List.mem_cons.mp hf with rfl | hf2
        · obtain ⟨b, bs, rfl, hb⟩ := hcur rfl
          right
          refine ⟨b, bs.reverse, ?_, hb⟩
          rw [List.reverse_append]
          rfl
        · exact ih true [] (fun h => nomatch h) f hf2
      · rw [Bool.not_eq_true] at hsplit
        rw [splitEnGo_cons_false_nosplit cur a rest hsplit] at hf
        refine ih false (a :: cur) ?_ f hf
        intro _
        obtain ⟨b, bs, rfl, hb⟩ := hcur rfl
        exact ⟨b, a :: bs, rfl, hb⟩
    · by_cases hws : isWsChar a = true
      · rw [splitEnGo_cons_true_ws cur a rest hws] at hf
        exact ih true [] (fun h => nomatch h) f hf
      · rw [Bool.not_eq_true] at hws
        rw [splitEnGo_cons_true_nws cur a rest hws] at hf
        exact ih false [a] (fun _ => ⟨a, [], rfl, hws⟩) f hf

/-- Every fragment after the first is empty or starts with a non-whitespace
character. -/
theorem splitEn_tail_start (l : List Char) :
    ∀ cur : List Char, ∀ f ∈ (splitEnGo false cur l).tail,
      f = [] ∨ ∃ c cs, f = c :: cs ∧ isWsChar c = false := by
  induction l with
  | nil =>
    intro cur f hf
    rw [splitEnGo_nil_false] at hf
    simp at hf
  | cons a rest ih =>
    intro cur f hf
    by_cases hsplit : (headIsTerm cur && isWsChar a) = true
    · rw [splitEnGo_cons_false_split cur a rest hsplit] at hf
      rw [List.tail_cons] at hf
      exact splitEn_frag_start rest true [] (fun h => nomatch h) f hf
    · rw [Bool.not_eq_true] at hsplit
      rw [splitEnGo_cons_false_nosplit cur a rest hsplit] at hf
      exact ih (a :: cur) f hf

/-- Characters of English-splitter fragments come from the accumulated
fragment or the input. -/
theorem splitEn_charset (l : List Char) :
    ∀ (mode : Bool) (cur : List Char), ∀ f ∈ splitEnGo mode cur l,
      ∀ c ∈ f, c ∈ cur ∨ c ∈ l := by
  induction l with
  | nil =>
    intro mode cur f hf c hc
    cases mode
    · rw [splitEnGo_nil_false] at hf
      rw [List.mem_singleton.mp hf] at hc
      exact Or.inl (List.mem_reverse.mp hc)
    · rw [splitEnGo_nil_true] at hf
      rw [List.mem_singleton.mp hf] at hc
      exact absurd hc (List.not_mem_nil c)
  | cons a rest ih =>
    intro mode cur f hf c hc
    cases mode
    · by_cases hsplit : (headIsTerm cur && isWsChar a) = true
      · rw [splitEnGo_cons_false_split cur a rest hsplit] at hf
        rcases List.mem_cons.mp hf with rfl | hf2
        · exact Or.inl (List.mem_reverse.mp hc)
        · rcases ih true [] f hf2 c hc with h1 | h1
          · exact absurd h1 (List.not_mem_nil c)
          · exact Or.inr (List.mem_cons_of_mem a h1)
      · rw [Bool.not_eq_true] at hsplit
        rw [splitEnGo_cons_false_nosplit cur a rest hsplit] at hf
        rcases ih false (a :: cur) f hf c hc with h1 | h1
        · rcases List.mem_cons.mp h1 with rfl | h2
          · exact Or.inr (List.mem_cons_self c rest)
          · exact Or.inl h2
        · exact Or.inr (List.mem_cons_of_mem a h1)
    · by_cases hws : isWsChar a = true
      · rw [splitEnGo_cons_true_ws cur a rest hws] at hf
        rcases ih true [] f hf c hc with h1 | h1
        · exact absurd h1 (List.not_mem_nil c)
        · exact Or.inr (List.mem_cons_of_mem a h1)
      · rw [Bool.not_eq_true] at hws
        rw [splitEnGo_cons_true_nws cur a rest hws] at hf
        rcases ih false [a] f hf c hc with h1 | h1
        · rw [List.mem_singleton.mp h1]
          exact Or.inr (List.mem_cons_self a rest)
        · exact Or.inr (List.mem_cons_of_mem a h1)

/-- Without any sentence terminator in the input (or at the head of the
accumulated fragment) the English splitter never splits. -/
theorem splitEn_no_term (l : List Char) :
    ∀ cur : List Char, (∀ c ∈ l, isTermChar c = false) → headIsTerm cur = false →
      splitEnGo false cur l = [cur.reverse ++ l] := by
  induction l with
  | nil =>
    intro cur _ _
    rw [splitEnGo_nil_false, List.append_nil]
  | cons a rest ih =>
    intro cur hl hcur
    have hsplit : (headIsTerm cur && isWsChar a) = false := by
      rw [hcur]
      rfl
    rw [splitEnGo_cons_false_nosplit cur a rest hsplit]
    have ha : isTermChar a = false := hl a (List.mem_cons_self a rest)
    rw [ih (a :: cur) (fun c hc => hl c (List.mem_cons_of_mem a hc))
      (by simpa [headIsTerm] using ha)]
    rw [List.reverse_cons, List.append_assoc]
    rfl

/-- Fragments of a class-run split never contain a separator character. -/
theorem splitRun_frag_sepfree (sep : Char → Bool) (l : List Char) :
    ∀ (mode : Bool) (cur : List Char), (∀ c ∈ cur, sep c = false) →
      ∀ f ∈ splitRunGo sep mode cur l, ∀ c ∈ f, sep c = false := by
  induction l with
  | nil =>
    intro mode cur hcur f hf c hc
    cases mode
    · rw [splitRunGo_nil_false] at hf
      rw [List.mem_singleton.mp hf] at hc
      exact hcur c (List.mem_reverse.mp hc)
    · rw [splitRunGo_nil_true] at hf
      rw [List.mem_singleton.mp hf] at hc
      exact absurd hc (List.not_mem_nil c)
  | cons a rest ih =>
    intro mode cur hcur f hf c hc
    cases mode
    · by_cases hsep : sep a = true
      · rw [splitRunGo_cons_false_sep sep cur a rest hsep] at hf
        rcases List.mem_cons.mp hf with rfl | hf2
        · exact hcur c (List.mem_reverse.mp hc)
        · exact ih true [] (fun c hc => absurd hc (List.not_mem_nil c)) f hf2 c hc
      · rw [Bool.not_eq_true] at hsep
        rw [splitRunGo_cons_false_nsep sep cur a rest hsep] at hf
        refine ih false (a :: cur) ?_ f hf c hc
        intro d hd
        rcases List.mem_cons.mp hd with rfl | hd2
        · exact hsep
        · exact hcur d hd2
    · by_cases hsep : sep a = true
      · rw [splitRunGo_cons_true_sep sep cur a rest hsep] at hf
        exact ih true [] (fun c hc => absurd hc (List.not_mem_nil c)) f hf c hc
      · rw [Bool.not_eq_true] at hsep
        rw [splitRunGo_cons_true_nsep sep cur a rest hsep] at hf
        refine ih false [a] ?_ f hf c hc
        intro d hd
        rw [List.mem_singleton.mp hd]
        exact hsep

/-- Without separator characters a class-run split never splits. -/
theorem splitRun_no_sep (sep : Char → Bool) (l : List Char) :
    ∀ cur : List Char, (∀ c ∈ l, sep c = false) →
      splitRunGo sep false cur l = [cur.reverse ++ l] := by
  induction l with
  | nil =>
    intro cur _
    rw [splitRunGo_nil_false, List.append_nil]
  | cons a rest ih =>
    intro cur hl
    have ha : sep a = false := hl a (List.mem_cons_self a rest)
    rw [splitRunGo_cons_false_nsep sep cur a rest ha]
    rw [ih (a :: cur) (fun c hc => hl c (List.mem_cons_of_mem a hc))]
    rw [List.reverse_cons, List.append_assoc]
    rfl

/-- The remaining input after the head fragment: each further fragment is
preceded by the single joining space. -/
def joinTail (L : List (List Char)) : List Char :=
  (L.map (fun g => ' ' :: g)).flatten

theorem joinTail_cons (g : List Char) (L : List (List Char)) :
    joinTail (g :: L) = ' ' :: (g ++ joinTail L) := by
  unfold joinTail
  rw [List.map_cons, List.flatten_cons]
  rfl

/-- Core counting lemma: re-splitting a head fragment followed by
space-joined further fragments produces at most one part per fragment,
provided no fragment contains the terminator-then-whitespace pattern, and the
further fragments are non-empty and start with non-whitespace. -/
theorem splitEn_join_count (n : ℕ) :
    ∀ (L : List (List Char)) (f cur : List Char),
      f.length + (joinTail L).length ≤ n →
      List.Chain' okPair (cur.reverse ++ f) →
      (∀ g ∈ L, List.Chain' okPair g ∧ g ≠ [] ∧
        ∀ c cs, g = c :: cs → isWsChar c = false) →
      (splitEnGo false cur (f ++ joinTail L)).length ≤ 1 + L.length := by
  induction n with
  | zero =>
    intro L f cur hn hchain hL
    have hf : f = [] := List.eq_nil_of_length_eq_zero (by omega)
    cases L with
    | nil =>
      subst hf
      show (splitEnGo false cur []).length ≤ 1
      rw [splitEnGo_nil_false]
      simp
    | cons g L' =>
      exfalso
      have := congrArg List.length (joinTail_cons g L')
      simp only [List.length_cons] at this
      omega
  | succ n ih =>
    intro L f cur hn hchain hL
    cases f with
    | nil =>
      cases L with
      | nil =>
        show (splitEnGo false cur []).length ≤ 1
        rw [splitEnGo_nil_false]
        simp
      | cons g L' =>
        rw [List.nil_append, joinTail_cons]
        obtain ⟨hgchain, hgne, hghead⟩ := hL g (List.mem_cons_self g L')
        cases g with
        | nil => exact absurd rfl hgne
        | cons c cs =>
          have hcws : isWsChar c = false := hghead c cs rfl
          have hjtlen : (joinTail ((c :: cs) :: L')).length =
              1 + (c :: cs).length + (joinTail L').length := by
            rw [joinTail_cons]
            simp [List.length_append]
            omega
          by_cases hterm : headIsTerm cur = true
          · have hcond : (headIsTerm cur && isWsChar ' ') = true := by
              rw [hterm]
              decide
            rw [splitEnGo_cons_false_split cur ' ' _ hcond]
            rw [List.length_cons]
            rw [show (c :: cs) ++ joinTail L' = c :: (cs ++ joinTail L') from rfl]
            rw [splitEnGo_cons_true_nws _ c _ hcws]
            have hrec := ih L' cs [c] (by
                rw [hjtlen] at hn
                simp only [List.length_nil, List.length_cons] at hn ⊢
                omega)
              (by
                rw [show ([c].reverse ++ cs) = c :: cs from rfl]
                exact hgchain)
              (fun g hg => hL g (List.mem_cons_of_mem _ hg))
            simp only [List.length_cons]
            omega
          · rw [Bool.not_eq_true] at hterm
            have hcond : (headIsTerm cur && isWsChar ' ') = false := by
              rw [hterm]
              rfl
            rw [splitEnGo_cons_false_nosplit cur ' ' _ hcond]
            have hchain2 : List.Chain' okPair ((' ' :: cur).reverse ++ (c :: cs) ++
                joinTail L') = List.Chain' okPair ((' ' :: cur).reverse ++ ((c :: cs) ++
                joinTail L')) := by
              rw [List.append_assoc]
            have hrec := ih L' (c :: cs) (' ' :: cur) (by
                rw [hjtlen] at hn
                simp only [List.length_nil, List.length_cons] at hn ⊢
                omega)
              (by
                rw [List.reverse_cons, List.append_assoc]
                refine List.chain'_append.mpr ⟨?_, ?_, ?_⟩
                · rw [List.append_nil] at hchain
                  exact hchain
                · rw [show [' '] ++ (c :: cs) = ' ' :: c :: cs from rfl]
                  rw [List.chain'_cons]
                  refine ⟨?_, hgchain⟩
                  intro hcon
                  exact absurd hcon.1 (by decide)
                · intro x hx y hy
                  rw [List.getLast?_reverse] at hx
                  rw [show ([' '] ++ (c :: cs)).head? = some ' ' from rfl,
                    Option.mem_some_iff] at hy
                  intro hcon
                  cases cur with
                  | nil => simp at hx
                  | cons p t =>
                    rw [List.head?_cons, Option.mem_some_iff] at hx
                    have : isTermChar p = false := by simpa [headIsTerm] using hterm
                    rw [hx] at this
                    rw [hcon.1] at this
                    exact Bool.noConfusion this)
              (fun g hg => hL g (List.mem_cons_of_mem _ hg))
            calc (splitEnGo false (' ' :: cur) ((c :: cs) ++ joinTail L')).length
                ≤ 1 + L'.length := hrec
              _ ≤ 1 + (L'.length + 1) := by omega
              _ = 1 + ((c :: cs) :: L').length := by rw [List.length_cons]
    | cons a f' =>
      have hcond : (headIsTerm cur && isWsChar a) = false := by
        cases cur with
        | nil => rfl
        | cons p t =>
          have hjun := (List.chain'_append.mp hchain).2.2
          have hok : okPair p a := by
            apply hjun
            · rw [List.getLast?_reverse, List.head?_cons]
              rfl
            · rw [List.head?_cons]
              rfl
          show (isTermChar p && isWsChar a) = false
          by_cases h1 : isTermChar p = true
          · by_cases h2 : isWsChar a = true
            · exact absurd ⟨h1, h2⟩ hok
            · rw [Bool.not_eq_true] at h2
              rw [h1, h2]
              rfl
          · rw [Bool.not_eq_true] at h1
            rw [h1]
            rfl
      rw [List.cons_append, splitEnGo_cons_false_nosplit cur a _ hcond]
      apply ih L f' (a :: cur)
      · simp only [List.length_cons] at hn
        omega
      · rw [List.reverse_cons, List.append_assoc]
        rw [show [a] ++ f' = a :: f' from rfl]
        exact hchain
      · exact hL

/-- A string is non-empty iff its character list is. -/
theorem str_ne_empty_iff (s : String) : s ≠ "" ↔ s.data ≠ [] := by
  constructor
  · intro h hcon
    apply h
    cases s
    rw [show "" = String.mk [] from rfl]
    exact congrArg String.mk hcon
  · intro h hcon
    apply h
    rw [hcon]

/-- The character list of a space-join: head fragment, then each further
fragment preceded by one space. -/
theorem joinWith_space_data (a : String) :
    ∀ rest : List String,
      (joinWith " " (a :: rest)).data = a.data ++ joinTail (rest.map String.data) := by
  intro rest
  induction rest generalizing a with
  | nil =>
    show a.data = a.data ++ joinTail []
    rw [show joinTail [] = [] from rfl, List.append_nil]
  | cons b t ih =>
    show (a ++ " " ++ joinWith " " (b :: t)).data = _
    rw [String.data_append, String.data_append, ih b]
    rw [List.map_cons, joinTail_cons]
    rw [List.append_assoc]
    rfl

/-- Trimming preserves pattern-freedom. -/
theorem chain_trimChars {R : Char → Char → Prop} {l : List Char}
    (h : List.Chain' R l) : List.Chain' R (trimChars l) := by
  unfold trimChars
  have h1 : List.Chain' R (l.dropWhile isWsChar) := h.suffix (List.dropWhile_suffix _)
  have h2 : List.Chain' (flip R) (l.dropWhile isWsChar).reverse := by
    rw [← List.chain'_reverse, List.reverse_reverse]
    exact h1
  have h3 : List.Chain' (flip R) ((l.dropWhile isWsChar).reverse.dropWhile isWsChar) :=
    h2.suffix (List.dropWhile_suffix _)
  rw [List.chain'_reverse]
  exact h3

/-- Characters of the space-join come from a fragment or are the space. -/
theorem joinWith_space_charset :
    ∀ (sel : List String) (c : Char), c ∈ (joinWith " " sel).data →
      c = ' ' ∨ ∃ s ∈ sel, c ∈ s.data := by
  intro sel
  induction sel with
  | nil =>
    intro c hc
    exact absurd hc (List.not_mem_nil c)
  | cons a t ih =>
    intro c hc
    cases t with
    | nil =>
      right
      exact ⟨a, List.mem_cons_self a [], hc⟩
    | cons b t2 =>
      rw [show joinWith " " (a :: b :: t2) = a ++ " " ++ joinWith " " (b :: t2) from rfl] at hc
      rw [String.data_append, String.data_append] at hc
      rcases List.mem_append.mp hc with h1 | h1
      · rcases List.mem_append.mp h1 with h2 | h2
        · exact Or.inr ⟨a, List.mem_cons_self a _, h2⟩
        · left
          simpa using h2
      · rcases ih c h1 with h2 | ⟨s, hs, hcs⟩
        · exact Or.inl h2
        · exact Or.inr ⟨s, List.mem_cons_of_mem a hs, hcs⟩

/-- Decompose membership in the English branch of `extractSentences`. -/
theorem mem_extractEn {det : String → Bool} {text s : String}
    (hmode : isArabicStr det text = false) (hs : s ∈ extractSentences det text) :
    ∃ f ∈ splitEnGo false [] text.data, f ≠ [] ∧ s = trimStr ⟨f⟩ := by
  unfold extractSentences at hs
  rw [if_neg (by simp [hmode])] at hs
  obtain ⟨t, ht, rfl⟩ := List.mem_map.mp hs
  have ht2 := List.mem_filter.mp ht
  obtain ⟨f, hf, rfl⟩ := List.mem_map.mp ht2.1
  refine ⟨f, hf, ?_, rfl⟩
  have hne : (⟨f⟩ : String) ≠ "" := by
    have := ht2.2
    simpa using this
  rw [str_ne_empty_iff] at hne
  exact hne

/-- Decompose membership in the Arabic branch of `extractSentences`. -/
theorem mem_extractAr {det : String → Bool} {text s : String}
    (hmode : isArabicStr det text = true) (hs : s ∈ extractSentences det text) :
    ∃ f ∈ splitRun isArSepChar text.data, f ≠ [] ∧ s = trimStr ⟨f⟩ := by
  unfold extractSentences at hs
  rw [if_pos hmode] at hs
  obtain ⟨t, ht, rfl⟩ := List.mem_map.mp hs
  have ht2 := List.mem_filter.mp ht
  obtain ⟨f, hf, rfl⟩ := List.mem_map.mp ht2.1
  refine ⟨f, hf, ?_, rfl⟩
  have hne : (⟨f⟩ : String) ≠ "" := by
    have := ht2.2
    simpa using this
  rw [str_ne_empty_iff] at hne
  exact hne

/-- Properties of English segmentation output: pattern-free, starting
non-whitespace, drawn from the input's characters. -/
theorem extractEn_props {det : String → Bool} {text : String}
    (hmode : isArabicStr det text = false) :
    ∀ s ∈ extractSentences det text,
      List.Chain' okPair s.data ∧ (∀ c cs, s.data = c :: cs → isWsChar c = false) ∧
      (∀ c ∈ s.data, c ∈ text.data) := by
  intro s hs
  obtain ⟨f, hf, hfne, rfl⟩ := mem_extractEn hmode hs
  have hdata : (trimStr ⟨f⟩).data = trimChars f := rfl
  refine ⟨?_, ?_, ?_⟩
  · rw [hdata]
    exact chain_trimChars (splitEn_chain text.data false [] List.chain'_nil f hf)
  · intro c cs hceq
    rw [hdata] at hceq
    rcases trimChars_head_not_ws f with hnil | ⟨c', cs', heq, hws⟩
    · rw [hnil] at hceq
      exact absurd hceq (by simp)
    · rw [heq] at hceq
      rw [← (List.cons.injEq _ _ _ _ ▸ hceq : c' = c ∧ cs' = cs).1]
      exact hws
  · intro c hc
    rw [hdata] at hc
    rcases splitEn_charset text.data false [] f hf c (trimChars_subset hc) with h1 | h1
    · exact absurd h1 (List.not_mem_nil c)
    · exact h1

/-- When the English segmentation yields at least two sentences, every
sentence is non-empty: non-final fragments end with their terminator, later
fragments start with non-whitespace. -/
theorem extractEn_ne {det : String → Bool} {text : String}
    (hmode : isArabicStr det text = false)
    (h2 : 2 ≤ (extractSentences det text).length) :
    ∀ s ∈ extractSentences det text, s ≠ "" := by
  intro s hs
  obtain ⟨f, hf, hfne, rfl⟩ := mem_extractEn hmode hs
  rw [str_ne_empty_iff]
  show trimChars f ≠ []
  have hFne : splitEnGo false [] text.data ≠ [] := splitEnGo_ne_nil _ _ _
  have hFlen : 2 ≤ (splitEnGo false [] text.data).length := by
    have hle : (extractSentences det text).length ≤ (splitEnGo false [] text.data).length := by
      unfold extractSentences
      rw [if_neg (by simp [hmode])]
      rw [List.length_map]
      calc ((((splitEnGo false [] text.data).map
              (fun l => (⟨l⟩ : String))).filter (fun s => s ≠ "")).length)
          ≤ ((splitEnGo false [] text.data).map (fun l => (⟨l⟩ : String))).length :=
            List.length_filter_le _ _
        _ = (splitEnGo false [] text.data).length := List.length_map _ _
    omega
  have hdecomp : f ∈ (splitEnGo false [] text.data).dropLast ∨
      f = (splitEnGo false [] text.data).getLast hFne := by
    have happ := List.dropLast_append_getLast hFne
    have hmem : f ∈ (splitEnGo false [] text.data).dropLast ++
        [(splitEnGo false [] text.data).getLast hFne] := by
      rw [happ]
      exact hf
    rcases List.mem_append.mp hmem with h | h
    · exact Or.inl h
    · right
      simpa using h
  rcases hdecomp with hcase | hcase
  · obtain ⟨c, hclast, hcterm⟩ := splitEn_dropLast_term text.data false [] f hcase
    have hcmem : c ∈ f := by
      obtain ⟨hh, heq⟩ := List.mem_getLast?_eq_getLast (Option.mem_def.mpr hclast)
      rw [heq]
      exact List.getLast_mem hh
    exact trimChars_ne_nil hcmem (term_not_ws c hcterm)
  · have htail : f ∈ (splitEnGo false [] text.data).tail := by
      have hlastq : (splitEnGo false [] text.data).getLast? = some f := by
        rw [List.getLast?_eq_getLast_of_ne_nil hFne, hcase]
      rcases hFcase : splitEnGo false [] text.data with _ | ⟨x, t⟩
      · exact absurd hFcase hFne
      · have ht_ne : t ≠ [] := by
          rw [hFcase] at hFlen
          cases t
          · simp at hFlen
          · simp
        rw [hFcase] at hlastq
        cases t with
        | nil => exact absurd rfl ht_ne
        | cons y t2 =>
          rw [List.getLast?_cons_cons] at hlastq
          rw [List.tail_cons]
          obtain ⟨hh, heq⟩ := List.mem_getLast?_eq_getLast (Option.mem_def.mpr hlastq)
          rw [heq]
          exact List.getLast_mem hh
    rcases splitEn_tail_start text.data [] f htail with hnil | ⟨c, cs, hceq, hws⟩
    · exact absurd hnil hfne
    · refine trimChars_ne_nil ?_ hws
      rw [hceq]
      exact List.mem_cons_self c cs

/-- Arabic segmentation output contains no boundary characters. -/
theorem extractAr_sepfree {det : String → Bool} {text : String}
    (hmode : isArabicStr det text = true) :
    ∀ s ∈ extractSentences det text, ∀ c ∈ s.data, isArSepChar c = false := by
  intro s hs c hc
  obtain ⟨f, hf, hfne, rfl⟩ := mem_extractAr hmode hs
  have hdata : (trimStr ⟨f⟩).data = trimChars f := rfl
  rw [hdata] at hc
  exact splitRun_frag_sepfree isArSepChar text.data false []
    (fun d hd => absurd hd (List.not_mem_nil d)) f hf c (trimChars_subset hc)

/-- Re-segmenting a boundary-free string yields at most one sentence. -/
theorem extract_of_sepfree (det : String → Bool) (raw : String)
    (hfree : ∀ c ∈ raw.data, isArSepChar c = false) :
    (extractSentences det raw).length ≤ 1 := by
  unfold extractSentences
  split
  · rw [show splitRun isArSepChar raw.data = splitRunGo isArSepChar false [] raw.data from rfl]
    rw [splitRun_no_sep isArSepChar raw.data [] hfree]
    rw [List.length_map]
    refine le_trans (List.length_filter_le _ _) ?_
    simp
  · have hterm : ∀ c ∈ raw.data, isTermChar c = false := by
      intro c hc
      by_cases h : isTermChar c = true
      · have := term_isArSep c h
        rw [hfree c hc] at this
        exact Bool.noConfusion this
      · rwa [Bool.not_eq_true] at h
    rw [splitEn_no_term raw.data [] hterm rfl]
    rw [List.length_map]
    refine le_trans (List.length_filter_le _ _) ?_
    simp

/-- Re-segmenting (in English mode) a space-join of pattern-free, non-empty,
non-whitespace-leading fragments yields at most one sentence per fragment. -/
theorem extract_resplit_en_bound (det : String → Bool) (sel : List String)
    (hmode : isArabicStr det (joinWith " " sel) = false)
    (hne : sel ≠ [])
    (hfacts : ∀ s ∈ sel, List.Chain' okPair s.data ∧ s ≠ "" ∧
      (∀ c cs, s.data = c :: cs → isWsChar c = false)) :
    (extractSentences det (joinWith " " sel)).length ≤ sel.length := by
  have hbound : (splitEnGo false [] (joinWith " " sel).data).length ≤ sel.length := by
    cases sel with
    | nil => exact absurd rfl hne
    | cons a rest =>
      rw [joinWith_space_data a rest]
      have hcount := splitEn_join_count
        (a.data.length + (joinTail (rest.map String.data)).length)
        (rest.map String.data) a.data [] le_rfl
        (by
          show List.Chain' okPair (([] : List Char).reverse ++ a.data)
          rw [show (([] : List Char).reverse ++ a.data) = a.data from rfl]
          exact (hfacts a (List.mem_cons_self a rest)).1)
        (by
          intro g hg
          obtain ⟨s, hsmem, rfl⟩ := List.mem_map.mp hg
          obtain ⟨hch, hsne, hhead⟩ := hfacts s (List.mem_cons_of_mem a hsmem)
          exact ⟨hch, (str_ne_empty_iff s).mp hsne, hhead⟩)
      rw [List.length_map] at hcount
      calc (splitEnGo false [] (a.data ++ joinTail (rest.map String.data))).length
          ≤ 1 + rest.length := hcount
        _ = (a :: rest).length := by rw [List.length_cons]; omega
  unfold extractSentences
  rw [if_neg (by simp [hmode])]
  rw [List.length_map]
  exact le_trans (List.length_filter_le _ _)
    (le_trans (le_of_eq (List.length_map _ _)) hbound)

/-- C10 (confirmed).  The synchronous `summarize` entry point passes
`min(sentenceCount, 5)` to `summarizeText`; whenever the cleaned text
segments into more than five sentences, the re-segmented and sliced summary
contains at most five sentences even for `sentenceCount > 5`.  The
environment hypothesis states that the external language detector never
reports Arabic for a text without Arabic-block characters (the detector is
only consulted for such texts, and `langdetect`'s Arabic profile requires
Arabic script). -/
theorem c10_sentence_cap (det : String → Bool) (text : String) (sc : ℕ)
    (hdet : ∀ s, hasArabChar s = false → det s = false)
    (hlen : 5 < (extractSentences det text).length) :
    (limitedSummarySentences det text sc).length ≤ 5 := by
  unfold limitedSummarySentences summarizeCapped
  have hk5 : min sc 5 ≤ 5 := min_le_right _ _
  have hempty : extractSentences det "" = [] := by
    unfold extractSentences
    rw [if_neg ?_]
    · rfl
    · show ¬ (isArabicStr det "" = true)
      unfold isArabicStr
      rw [hdet "" rfl]
      decide
  by_cases hblank : trimStr text = ""
  · have hraw : summarizeText det text (min sc 5) = "" := by
      unfold summarizeText
      rw [if_pos hblank]
    rw [hraw, hempty]
    simp
  · by_cases hshort : (extractSentences det text).length ≤ min sc 5
    · exact absurd hshort (by omega)
    · have hraw : summarizeText det text (min sc 5) =
          joinWith " " ((selectTop
            (if isArabicStr det text then
              scoreArabicSentences (extractSentences det text)
             else scoreEnglishSentences (extractSentences det text)) (min sc 5)).map
            Sentence.text) := by
        unfold summarizeText
        rw [if_neg hblank, if_neg hshort]
      rw [hraw]
      set ss := extractSentences det text with hss
      set scored := (if isArabicStr det text then scoreArabicSentences ss
        else scoreEnglishSentences ss) with hscored
      set selS := (selectTop scored (min sc 5)).map Sentence.text with hselS
      have hmap : scored.map Sentence.text = ss := by
        rw [hscored]
        split
        · exact enumMap_map_text (keeps_scoreArBody ss) ss
        · exact enumMap_map_text (keeps_scoreEnBody ss) ss
      have hslen : scored.length = ss.length := by
        rw [hscored]
        split
        · exact enumMap_length _ ss
        · exact enumMap_length _ ss
      have hsellen : selS.length = min sc 5 := by
        rw [hselS, List.length_map, selectTop_length, hslen]
        omega
      have hselmem : ∀ s ∈ selS, s ∈ ss := by
        intro s hsmem
        obtain ⟨x, hx, rfl⟩ := List.mem_map.mp hsmem
        rw [← hmap]
        exact List.mem_map_of_mem Sentence.text (mem_selectTop hx)
      have hbound : (extractSentences det (joinWith " " selS)).length ≤ 5 := by
        by_cases hselnil : selS = []
        · rw [hselnil]
          refine le_trans (extract_of_sepfree det _ ?_) (by omega)
          intro c hc
          exact absurd hc (List.not_mem_nil c)
        · by_cases hmode : isArabicStr det text = true
          · refine le_trans (extract_of_sepfree det _ ?_) (by omega)
            intro c hc
            rcases joinWith_space_charset selS c hc with rfl | ⟨s, hsmem, hcs⟩
            · exact space_not_arSep
            · exact extractAr_sepfree hmode s (hselmem s hsmem) c hcs
          · rw [Bool.not_eq_true] at hmode
            have htextnoarab : hasArabChar text = false := by
              have hm := hmode
              unfold isArabicStr at hm
              exact (Bool.or_eq_false_iff.mp hm).1
            have hnoarab : hasArabChar (joinWith " " selS) = false := by
              unfold hasArabChar
              rw [List.any_eq_false]
              intro c hc
              rcases joinWith_space_charset selS c hc with rfl | ⟨s, hsmem, hcs⟩
              · decide
              · have hcintext : c ∈ text.data :=
                  (extractEn_props hmode s (hselmem s hsmem)).2.2 c hcs
                unfold hasArabChar at htextnoarab
                rw [List.any_eq_false] at htextnoarab
                exact htextnoarab c hcintext
            have hrawmode : isArabicStr det (joinWith " " selS) = false := by
              unfold isArabicStr
              rw [hnoarab, hdet _ hnoarab]
              rfl
            have hss2 : 2 ≤ ss.length := by omega
            have hfacts : ∀ s ∈ selS, List.Chain' okPair s.data ∧ s ≠ "" ∧
                (∀ c cs, s.data = c :: cs → isWsChar c = false) := by
              intro s hsmem
              obtain ⟨hch, hhead, _⟩ := extractEn_props hmode s (hselmem s hsmem)
              exact ⟨hch, extractEn_ne hmode hss2 s (hselmem s hsmem), hhead⟩
            refine le_trans
              (extract_resplit_en_bound det selS hrawmode hselnil hfacts) ?_
            rw [hsellen]
            exact hk5
      calc ((extractSentences det (joinWith " " selS)).take sc).length
          ≤ (extractSentences det (joinWith " " selS)).length := by
            rw [List.length_take]
            exact min_le_right _ _
        _ ≤ 5 := hbound

/-- Witness for C10: seven sentences, `sentenceCount = 9`, summary limited to
five sentences. -/
theorem c10_sentence_cap_witness :
    (limitedSummarySentences (fun _ => false)
      "Aa bb. Cc dd. Ee ff. Gg hh. Ii jj. Kk ll. Mm nn." 9).length ≤ 5 :=
  c10_sentence_cap (fun _ => false)
    "Aa bb. Cc dd. Ee ff. Gg hh. Ii jj. Kk ll. Mm nn." 9
    (fun _ _ => rfl) (by with_unfolding_all decide)
